import Mathlib

/-!
# Verification of the `smartiq_utils.ip_pool` interval-based IP address pool

This file gives a shallow embedding of `src/smartiq_utils/ip_pool.py` and proves
or refutes the frozen claims about it.

Modelling conventions:

* An IPv4 interface (`ipaddress.IPv4Interface`) is modelled as a structure
  `Iface` holding the numeric address value (`ip`, a `Nat`) and the
  prefix-length (`plen`, a `Nat`).  The development models the IPv4
  instantiation of the (family-generic) Python code; the interval algebra is
  identical for IPv6 up to the bit width.  All strings are modelled as
  `List Char` so that tokenisation is amenable to induction.
* Python exceptions become an `Err` sum type; operations that can raise return
  `Except Err _`, and mutating operations return the post-call pool state
  together with an optional error, because the source commits partial mutation
  before raising in batch loops.
* `ipaddress.ip_interface` (Python standard library, not part of this
  repository) is modelled from the spec's grammar
  `address := ip-literal ["/" prefix-length]` for IPv4 dotted-quad literals.
-/

/-- Decimal digit character for a value `0 ≤ d ≤ 9`. -/
def digitChar (d : Nat) : Char := Char.ofNat (48 + d)

/-- Render a natural number in decimal, most significant digit first. -/
def natChars (n : Nat) : List Char :=
  if h : n < 10 then [digitChar n]
  else natChars (n / 10) ++ [digitChar (n % 10)]
decreasing_by exact Nat.div_lt_self (by omega) (by omega)

/-- Is the character a decimal digit? -/
def isDigitChar (c : Char) : Bool := 48 ≤ c.toNat && c.toNat ≤ 57

/-- Numeric value of a decimal digit string, most significant digit first
(`some` only when nonempty and all digits): models `int(s)` on such input. -/
def digitsVal (s : List Char) : Option Nat :=
  if s ≠ [] ∧ s.all isDigitChar then
    some (s.foldl (fun a c => a * 10 + (c.toNat - 48)) 0)
  else none

/-- Split a character list at every occurrence of `c`, keeping empty pieces:
the model of Python's `str.split` with a one-character separator. -/
def splitOnChar (c : Char) : List Char → List (List Char)
  | [] => [[]]
  | x :: xs =>
    if x = c then [] :: splitOnChar c xs
    else
      match splitOnChar c xs with
      | [] => [[x]]
      | y :: ys => (x :: y) :: ys

/-- Model of Python's `str.strip`: drop leading and trailing whitespace. -/
def stripChars (s : List Char) : List Char :=
  (((s.dropWhile Char.isWhitespace).reverse).dropWhile Char.isWhitespace).reverse

/-- An IPv4 interface value: numeric address plus prefix length
(models `ipaddress.IPv4Interface`). -/
structure Iface where
  ip : Nat
  plen : Nat
deriving DecidableEq, Repr

/-- An IP range: an ordered pair of interfaces (models the `IPPair` alias). -/
abbrev IPRangePair := Iface × Iface

/-- The network address of an interface: the address with the host bits
(the low `32 - plen` bits) cleared.  Models `interface.network.network_address`. -/
def netAddr (i : Iface) : Nat :=
  i.ip / 2 ^ (32 - i.plen) * 2 ^ (32 - i.plen)

/-- Python `IPv4Interface.__lt__`: compare by network (network address, then
netmask, i.e. prefix length) and then by address value. -/
def ifaceLt (a b : Iface) : Bool :=
  netAddr a < netAddr b ||
    (netAddr a = netAddr b &&
      (a.plen < b.plen || (a.plen = b.plen && a.ip < b.ip)))

/-- Python `max(a, b)` on two interfaces: the second iff it is strictly
greater. -/
def ifaceMax (a b : Iface) : Iface :=
  if ifaceLt a b then b else a

/-- Sorting key comparison used by `sort_and_merge_ip_ranges`:
Python `sorted(ranges, key=lambda x: (x[0].ip, x[1].ip))`. -/
def keyLeB (a b : IPRangePair) : Bool :=
  a.1.ip < b.1.ip || (a.1.ip = b.1.ip && a.2.ip ≤ b.2.ip)

/-- Stable insertion of a pair into a list, before the first element it is
`keyLeB`-below-or-equal: together with `sortPairs` this computes exactly the
stable sort that Python's `sorted` performs with the `(start.ip, end.ip)` key. -/
def insertPair (x : IPRangePair) : List IPRangePair → List IPRangePair
  | [] => [x]
  | y :: ys => if keyLeB x y then x :: y :: ys else y :: insertPair x ys

/-- Stable sort by the `(start.ip, end.ip)` key. -/
def sortPairs : List IPRangePair → List IPRangePair
  | [] => []
  | x :: xs => insertPair x (sortPairs xs)

/-- The merging walk of `sort_and_merge_ip_ranges`: the first argument is the
accumulator `merged[-1]`; a new interval is merged into it whenever
`current_start.ip <= last_end.ip + 1`, taking `max(last_end, current_end)`
(Python interface comparison) as the new end. -/
def mergeAdj (acc : IPRangePair) : List IPRangePair → List IPRangePair
  | [] => [acc]
  | (cs, ce) :: rest =>
    if cs.ip ≤ acc.2.ip + 1 then mergeAdj (acc.1, ifaceMax acc.2 ce) rest
    else acc :: mergeAdj (cs, ce) rest

/-- `sort_and_merge_ip_ranges` from `ip_pool.py`: sort by the
`(start.ip, end.ip)` key, then merge overlapping or adjacent ranges. -/
def sort_and_merge_ip_ranges (ranges : List IPRangePair) : List IPRangePair :=
  match sortPairs ranges with
  | [] => []
  | h :: t => mergeAdj h t

/-- The sub-intervals replacing a range `(s, e)` that contains the removed
address `a`: `[s, a-1]` if `s.ip < a` and `[a+1, e]` if `e.ip > a`, both
built with the prefix length of `s` (`start.network.prefixlen` in the source). -/
def removePieces (s e : Iface) (a : Nat) : List IPRangePair :=
  (if s.ip < a then [(s, Iface.mk (a - 1) s.plen)] else []) ++
    (if e.ip > a then [(Iface.mk (a + 1) s.plen, e)] else [])

/-- The scanning loop of `remove_ip_from_ranges`: returns the rebuilt list and
the `ip_found` flag. -/
def removeScan (a : Nat) : List IPRangePair → List IPRangePair × Bool
  | [] => ([], false)
  | (s, e) :: rest =>
    let r := removeScan a rest
    if s.ip ≤ a && a ≤ e.ip then (removePieces s e a ++ r.1, true)
    else ((s, e) :: r.1, r.2)

/-- Does some range of the list contain the address value `n`?
(The coverage set of a range list.) -/
def coversB (l : List IPRangePair) (n : Nat) : Bool :=
  l.any fun p => p.1.ip ≤ n && n ≤ p.2.ip

/-- Every pair is a genuine interval: `start.ip ≤ end.ip`. -/
def validB (l : List IPRangePair) : Bool :=
  l.all fun p => p.1.ip ≤ p.2.ip

/-- Every endpoint carries prefix length `P`. -/
def uniformB (P : Nat) (l : List IPRangePair) : Bool :=
  l.all fun p => p.1.plen = P && p.2.plen = P

/-- Auxiliary gap predicate: all ranges start strictly above `m + 1` and
consecutive ranges are separated by a gap of at least one address. -/
def gapFrom (m : Nat) : List IPRangePair → Bool
  | [] => true
  | (s, e) :: t => m + 1 < s.ip && gapFrom e.ip t

/-- Canonical separation: consecutive ranges neither overlap nor touch
(each starts at least two above the previous end). -/
def gappedB : List IPRangePair → Bool
  | [] => true
  | (_, e) :: t => gapFrom e.ip t

/-- Sortedness by the `(start.ip, end.ip)` key. -/
def sortedPairsB : List IPRangePair → Bool
  | [] => true
  | [_] => true
  | a :: b :: t => keyLeB a b && sortedPairsB (b :: t)

/-- Parse one dotted-quad octet: nonempty, decimal digits only, no redundant
leading zero, value at most 255 (models CPython `ipaddress`'s
`_parse_octet`). -/
def parseOctet (s : List Char) : Option Nat :=
  match digitsVal s with
  | none => none
  | some v =>
    if s.length > 1 && s.head? = some '0' then none
    else if v ≤ 255 then some v else none

/-- Parse an IPv4 dotted-quad literal into its 32-bit numeric value.
Modelled from the spec: `ip-literal` for the IPv4 family, as accepted by the
standard library's `ipaddress` module (exactly four octets). -/
def parseIPv4 (s : List Char) : Option Nat :=
  match splitOnChar '.' s with
  | [a, b, c, d] =>
    match parseOctet a, parseOctet b, parseOctet c, parseOctet d with
    | some x, some y, some z, some w =>
      some (((x * 256 + y) * 256 + z) * 256 + w)
    | _, _, _, _ => none
  | _ => none

/-- Parse a prefix length: decimal digits with value at most 32.  Modelled
from the spec: the `"/" prefix-length` part of the address grammar, as
validated by `ipaddress` (dotted netmask notation is outside the modelled
grammar). -/
def parsePlen (s : List Char) : Option Nat :=
  match digitsVal s with
  | none => none
  | some v => if v ≤ 32 then some v else none

/-- Modelled from the spec: the standard library's `ipaddress.ip_interface`
constructor for the IPv4 family (`ip-literal ["/" prefix-length]`); a bare
address gets the host prefix length 32.  Returns `none` exactly where Python
raises `ValueError`. -/
def parseIPIface (s : List Char) : Option Iface :=
  match splitOnChar '/' s with
  | [a] => (parseIPv4 a).map fun v => Iface.mk v 32
  | [a, m] =>
    match parseIPv4 a, parsePlen m with
    | some v, some p => some (Iface.mk v p)
    | _, _ => none
  | _ => none

/-- Render a 32-bit address value as a dotted quad (`str(IPv4Address)`). -/
def ipv4Chars (n : Nat) : List Char :=
  natChars (n / 16777216 % 256) ++ '.' ::
    (natChars (n / 65536 % 256) ++ '.' ::
      (natChars (n / 256 % 256) ++ '.' :: natChars (n % 256)))

/-- Render an interface with its prefix (`str(IPv4Interface)`). -/
def ifaceChars (i : Iface) : List Char :=
  ipv4Chars i.ip ++ '/' :: natChars i.plen

/-- The IP pool state: the mutable attributes of the Python `IPPool` object.
The separator is fixed to the default `","`; the claims only exercise it. -/
structure IPPool where
  ipv4_mask : Nat
  ipv6_mask : Nat
  version : Option Nat
  network : Option (Nat × Nat)
  available_ip_pool : List IPRangePair
  used_ips : List IPRangePair
deriving DecidableEq, Repr

/-- The errors the pool code can raise.  The `IPPoolException` taxonomy
(`InvalidIPAddressError`, `InvalidIPAddressRangeError`, `InvalidIPVersionError`,
`InvalidNetworkError`, `NotInAvailableIPPoolError`, `NotInUsedIPsError`,
`TooManyIPsToExtendError`), the standalone `IPNotInListError`, plain
Python `ValueError` (used by `allocate_ip`, by tuple unpacking in
`_parse_ip_range`, and by the unguarded default-mask re-parse in
`_update_netmask`), and `ipaddress.AddressValueError` (raised by
`current_ip += 1` in `_list_ips` past 255.255.255.255) are distinct
constructors. -/
inductive Err where
  | invalidIPAddress (s : List Char)
  | invalidIPAddressRange (s : List Char)
  | invalidIPVersion (s : List Char)
  | invalidNetwork (s : List Char)
  | ipNotInList (ip : Iface) (ip_list : List IPRangePair)
  | notInAvailableIPPool (ip : Iface) (ip_list : List IPRangePair)
  | notInUsedIPs (ip : Iface) (ip_list : List IPRangePair)
  | tooManyIPsToExtend (ip_pool : IPPool)
  | valueError (msg : List Char)
  | addressValueError (msg : List Char)
deriving DecidableEq, Repr

/-- `remove_ip_from_ranges` from `ip_pool.py`: rebuild the list, splitting
every range containing the address; raise `IPNotInListError` (carrying the
interface and the searched list) when none contains it. -/
def remove_ip_from_ranges (ranges : List IPRangePair) (interface : Iface) :
    Except Err (List IPRangePair) :=
  if (removeScan interface.ip ranges).2 then
    .ok (removeScan interface.ip ranges).1
  else .error (.ipNotInList interface ranges)

/-- `is_in_ranges` from `ip_pool.py`.  In this single-family embedding the
`isinstance` family filter of the source is identically true. -/
def is_in_ranges (ip : Iface) (ranges : List IPRangePair) : Bool :=
  ranges.any fun p => p.1.ip ≤ ip.ip && ip.ip ≤ p.2.ip

/-- `IPPool._update_netmask`: parse the string (raising
`InvalidIPAddressError` on failure), keep an explicit prefix, otherwise apply
the configured default IPv4 mask.  The default-mask re-parse
`ip_interface(f"{ip}/{self.ipv4_mask}")` sits outside the `try` block, so an
out-of-range default mask escapes as a plain, unwrapped `ValueError`
(message `{string!r} does not appear to be an IPv4 or IPv6 interface`). -/
def update_netmask (p : IPPool) (ip : List Char) : Except Err Iface :=
  match parseIPIface ip with
  | none => .error (.invalidIPAddress ip)
  | some i =>
    if ip.contains '/' then .ok i
    else if p.ipv4_mask ≤ 32 then .ok (Iface.mk i.ip p.ipv4_mask)
    else .error (.valueError ('\'' :: (ip ++ '/' :: natChars p.ipv4_mask) ++
      '\'' :: " does not appear to be an IPv4 or IPv6 interface".data))

/-- `IPPool._parse_ip_range`: split a token on `"-"`; Python's tuple
unpacking of the split raises a plain `ValueError` when the token does not
split into exactly two pieces.  Both ends must share the network and be
ordered. -/
def parse_ip_range (p : IPPool) (ip_range : List Char) :
    Except Err IPRangePair :=
  if ip_range.contains '-' then
    match splitOnChar '-' ip_range with
    | [rawStart, rawEnd] =>
      match update_netmask p (stripChars rawStart) with
      | .error e => .error e
      | .ok startI =>
        match update_netmask p (stripChars rawEnd) with
        | .error e => .error e
        | .ok endI =>
          if netAddr startI ≠ netAddr endI ∨ startI.plen ≠ endI.plen then
            .error (.invalidIPAddressRange ip_range)
          else if ifaceLt endI startI then
            .error (.invalidIPAddressRange ip_range)
          else .ok (startI, endI)
    | _ => .error (.valueError "too many values to unpack (expected 2)".data)
  else
    match update_netmask p (stripChars ip_range) with
    | .error e => .error e
    | .ok i => .ok (i, i)

/-- The token loop of `IPPool._generate_ip_ranges`: parse each token,
fixing the pool version and network from the first and enforcing them on the
rest; returns the parsed pairs in order together with the updated pool. -/
def collectRanges (p : IPPool) (input : List Char) :
    List (List Char) → Except Err (List IPRangePair × IPPool)
  | [] => .ok ([], p)
  | tok :: rest =>
    match parse_ip_range p tok with
    | .error e => .error e
    | .ok (s, e) =>
      let p' :=
        if p.version = none ∨ p.network = none then
          { p with version := some 4, network := some (netAddr s, s.plen) }
        else p
      if p'.version ≠ some 4 then .error (.invalidIPVersion input)
      else if p'.network ≠ some (netAddr s, s.plen) then
        .error (.invalidNetwork input)
      else
        match collectRanges p' input rest with
        | .error e => .error e
        | .ok (l, p'') => .ok ((s, e) :: l, p'')

/-- `IPPool.__init__` composed with `IPPool._generate_ip_ranges`: split the
pool string on the separator, parse every token, and coalesce the ranges into
the available pool; `used_ips` starts empty. -/
def IPPool.new (input : List Char) (ipv4_mask ipv6_mask : Nat) :
    Except Err IPPool :=
  match collectRanges
      { ipv4_mask := ipv4_mask, ipv6_mask := ipv6_mask, version := none,
        network := none, available_ip_pool := [], used_ips := [] }
      input (splitOnChar ',' input) with
  | .error e => .error e
  | .ok (l, p) =>
    .ok { p with available_ip_pool := sort_and_merge_ip_ranges l, used_ips := [] }

/-- `IPPool.allocate_ip`: pop the first available range, move its start into
`used_ips` (re-merging), and push back the rest of the range; raise a plain
`ValueError` on an empty pool, leaving the state unchanged. -/
def allocate_ip (p : IPPool) : Except Err Iface × IPPool :=
  match p.available_ip_pool with
  | [] => (.error (.valueError "No available IP addresses in the pool.".data), p)
  | (s, e) :: rest =>
    let used' := sort_and_merge_ip_ranges (p.used_ips ++ [(s, s)])
    let avail' :=
      if s ≠ e then (Iface.mk (s.ip + 1) s.plen, e) :: rest else rest
    (.ok s, { p with available_ip_pool := avail', used_ips := used' })

/-- `IPPool.set_used_ips`: per address, normalise and remove it from the
available pool (re-raising `IPNotInListError` as `NotInAvailableIPPoolError`),
appending the singleton to `used_ips`; `used_ips` is re-merged only after the
whole batch, so a raising call keeps the partially committed state. -/
def set_used_ips (p : IPPool) : List (List Char) → Option Err × IPPool
  | [] => (none, { p with used_ips := sort_and_merge_ip_ranges p.used_ips })
  | ip :: rest =>
    match update_netmask p ip with
    | .error e => (some e, p)
    | .ok i =>
      match remove_ip_from_ranges p.available_ip_pool i with
      | .error (.ipNotInList badIp badList) =>
        (some (.notInAvailableIPPool badIp badList), p)
      | .error e => (some e, p)
      | .ok avail' =>
        set_used_ips
          { p with available_ip_pool := avail',
                   used_ips := p.used_ips ++ [(i, i)] } rest

/-- An argument to `unset_used_ips`: a raw string or an interface object. -/
abbrev UnsetArg := Sum (List Char) Iface

/-- Per-argument normalisation of `unset_used_ips`: a raw string goes through
`_update_netmask`, an interface object is passed through (the source's
`isinstance` test). -/
def normArg (p : IPPool) : UnsetArg → Except Err Iface
  | .inl s => update_netmask p s
  | .inr i => .ok i

/-- `IPPool.unset_used_ips`: symmetric to `set_used_ips`, removing from
`used_ips` (re-raising as `NotInUsedIPsError`) and appending to the available
pool, which is re-merged only after the whole batch. -/
def unset_used_ips (p : IPPool) : List UnsetArg → Option Err × IPPool
  | [] =>
    (none, { p with available_ip_pool :=
              sort_and_merge_ip_ranges p.available_ip_pool })
  | arg :: rest =>
    match normArg p arg with
    | .error e => (some e, p)
    | .ok i =>
      match remove_ip_from_ranges p.used_ips i with
      | .error (.ipNotInList badIp badList) =>
        (some (.notInUsedIPs badIp badList), p)
      | .error e => (some e, p)
      | .ok used' =>
        unset_used_ips
          { p with used_ips := used',
                   available_ip_pool :=
                     p.available_ip_pool ++ [(i, i)] } rest

/-- The per-range expansion loop of `IPPool._list_ips` (at the default
arguments `include_netmask=True, is_string=False`): append one interface per
address, raising `TooManyIPsToExtendError` whenever the already accumulated
list is longer than 65536 before an append.  After each append the source
runs `current_ip += 1`, which raises `ipaddress.AddressValueError`
(`4294967296 (>= 2**32) is not permitted as an IPv4 address`) when
`current_ip` is 255.255.255.255 — before the loop condition is re-checked —
discarding the list built so far. -/
def listIpsRange (p : IPPool) (plen cur endIp : Nat) (acc : List Iface) :
    Except Err (List Iface) :=
  if h : cur ≤ endIp then
    if acc.length > 65536 then .error (.tooManyIPsToExtend p)
    else if cur + 1 ≥ 4294967296 then
      .error (.addressValueError
        "4294967296 (>= 2**32) is not permitted as an IPv4 address".data)
    else listIpsRange p plen (cur + 1) endIp (acc ++ [Iface.mk cur plen])
  else .ok acc
termination_by endIp + 1 - cur

/-- `IPPool._list_ips` over the whole range list (default arguments). -/
def listIps (p : IPPool) (acc : List Iface) :
    List IPRangePair → Except Err (List Iface)
  | [] => .ok acc
  | (s, e) :: rest =>
    match listIpsRange p s.plen s.ip e.ip acc with
    | .error err => .error err
    | .ok acc' => listIps p acc' rest

/-- `IPPool.list_available_ip` (default arguments). -/
def list_available_ip (p : IPPool) : Except Err (List Iface) :=
  listIps p [] p.available_ip_pool

/-- `IPPool.list_used_ips` (default arguments). -/
def list_used_ips (p : IPPool) : Except Err (List Iface) :=
  listIps p [] p.used_ips

/-- `IPPool.cleanup_used_ips`: recycle every used address, passing the
expanded interface objects straight to `unset_used_ips`. -/
def cleanup_used_ips (p : IPPool) : Option Err × IPPool :=
  match list_used_ips p with
  | .error e => (some e, p)
  | .ok l => unset_used_ips p (l.map Sum.inr)

/-- `IPPool.is_in_available_ip_pool`: membership query; an unparsable string
raises `InvalidIPAddressError` (the query never mutates the pool). -/
def is_in_available_ip_pool (p : IPPool) (ip : List Char) : Except Err Bool :=
  match update_netmask p ip with
  | .error e => .error e
  | .ok i => .ok (is_in_ranges i p.available_ip_pool)

/-- `IPPool.is_in_used_ips`: membership query on the used list. -/
def is_in_used_ips (p : IPPool) (ip : List Char) : Except Err Bool :=
  match update_netmask p ip with
  | .error e => .error e
  | .ok i => .ok (is_in_ranges i p.used_ips)

/-- Render one range for `to_string`: a bare address when the two endpoint
interfaces are equal (Python `==`, i.e. same address and network), else
`start.ip-end.ip`. -/
def rangeChars (pr : IPRangePair) : List Char :=
  if pr.1 = pr.2 then ipv4Chars pr.1.ip
  else ipv4Chars pr.1.ip ++ '-' :: ipv4Chars pr.2.ip

/-- Render one range for `__repr__`: endpoints carry their prefix. -/
def rangeReprChars (pr : IPRangePair) : List Char :=
  if pr.1 = pr.2 then ifaceChars pr.1
  else ifaceChars pr.1 ++ '-' :: ifaceChars pr.2

/-- Comma-join rendered pieces. -/
def joinComma : List (List Char) → List Char
  | [] => []
  | [x] => x
  | x :: y :: t => x ++ ',' :: joinComma (y :: t)

/-- `IPPool.to_string`: merge `available ∪ used` and render bare addresses. -/
def to_string (p : IPPool) : List Char :=
  joinComma ((sort_and_merge_ip_ranges
    (p.available_ip_pool ++ p.used_ips)).map rangeChars)

/-- `IPPool.__repr__`: merge `available ∪ used` and render with prefixes. -/
def reprChars (p : IPPool) : List Char :=
  joinComma ((sort_and_merge_ip_ranges
    (p.available_ip_pool ++ p.used_ips)).map rangeReprChars)

/-! ### Lemmas about the sorting pass -/

theorem keyLeB_total (a b : IPRangePair) :
    keyLeB a b = true ∨ keyLeB b a = true := by
  simp only [keyLeB, Bool.or_eq_true, Bool.and_eq_true, decide_eq_true_eq]
  omega

theorem insertPair_any (f : IPRangePair → Bool) (x : IPRangePair) :
    ∀ l : List IPRangePair, (insertPair x l).any f = (f x || l.any f)
  | [] => by simp [insertPair]
  | y :: ys => by
    by_cases h : keyLeB x y = true
    · simp [insertPair, h]
    · simp only [insertPair, if_neg h, List.any_cons, insertPair_any f x ys]
      cases f x <;> cases f y <;> simp

theorem insertPair_all (f : IPRangePair → Bool) (x : IPRangePair) :
    ∀ l : List IPRangePair, (insertPair x l).all f = (f x && l.all f)
  | [] => by simp [insertPair]
  | y :: ys => by
    by_cases h : keyLeB x y = true
    · simp [insertPair, h]
    · simp only [insertPair, if_neg h, List.all_cons, insertPair_all f x ys]
      cases f x <;> cases f y <;> simp

theorem sortPairs_any (f : IPRangePair → Bool) :
    ∀ l : List IPRangePair, (sortPairs l).any f = l.any f
  | [] => rfl
  | x :: xs => by
    simp [sortPairs, insertPair_any, sortPairs_any f xs]

theorem sortPairs_all (f : IPRangePair → Bool) :
    ∀ l : List IPRangePair, (sortPairs l).all f = l.all f
  | [] => rfl
  | x :: xs => by
    simp [sortPairs, insertPair_all, sortPairs_all f xs]

theorem coversB_sortPairs (l : List IPRangePair) (n : Nat) :
    coversB (sortPairs l) n = coversB l n :=
  sortPairs_any _ l

theorem validB_sortPairs (l : List IPRangePair) :
    validB (sortPairs l) = validB l :=
  sortPairs_all _ l

theorem uniformB_sortPairs (P : Nat) (l : List IPRangePair) :
    uniformB P (sortPairs l) = uniformB P l :=
  sortPairs_all _ l

theorem sortedPairsB_tail {x : IPRangePair} {l : List IPRangePair}
    (h : sortedPairsB (x :: l) = true) : sortedPairsB l = true := by
  cases l with
  | nil => rfl
  | cons y t =>
    simp only [sortedPairsB, Bool.and_eq_true] at h
    exact h.2

theorem sortedPairsB_head {x y : IPRangePair} {l : List IPRangePair}
    (h : sortedPairsB (x :: y :: l) = true) : keyLeB x y = true := by
  simp only [sortedPairsB, Bool.and_eq_true] at h
  exact h.1

theorem sortedPairsB_insert (x : IPRangePair) :
    ∀ l : List IPRangePair, sortedPairsB l = true →
      sortedPairsB (insertPair x l) = true
  | [], _ => rfl
  | [y], _ => by
    by_cases h : keyLeB x y = true
    · simp [insertPair, h, sortedPairsB]
    · rcases keyLeB_total x y with h1 | h1
      · exact absurd h1 h
      · simp [insertPair, h, sortedPairsB, h1]
  | y :: z :: t, hs => by
    have hyz : keyLeB y z = true := sortedPairsB_head hs
    have hzt : sortedPairsB (z :: t) = true := sortedPairsB_tail hs
    cases h : keyLeB x y with
    | true =>
      simp only [insertPair, h, if_true]
      simp only [sortedPairsB, Bool.and_eq_true] at hs ⊢
      exact ⟨h, hs⟩
    | false =>
      have hyx : keyLeB y x = true := by
        rcases keyLeB_total x y with h1 | h1
        · rw [h1] at h; exact absurd h (by simp)
        · exact h1
      simp only [insertPair, h, Bool.false_eq_true, if_false]
      cases h2 : keyLeB x z with
      | true =>
        simp only [insertPair, h2, if_true]
        simp only [sortedPairsB, Bool.and_eq_true] at hzt ⊢
        exact ⟨hyx, h2, hzt⟩
      | false =>
        have ih := sortedPairsB_insert x (z :: t) hzt
        simp only [insertPair, h2, Bool.false_eq_true, if_false] at ih
        simp only [insertPair, h2, Bool.false_eq_true, if_false]
        simp only [sortedPairsB, Bool.and_eq_true] at ih ⊢
        exact ⟨hyz, ih⟩

theorem sortPairs_sorted : ∀ l : List IPRangePair, sortedPairsB (sortPairs l) = true
  | [] => rfl
  | x :: xs => sortedPairsB_insert x _ (sortPairs_sorted xs)

theorem insertPair_sorted_head {x : IPRangePair} {l : List IPRangePair}
    (h : sortedPairsB (x :: l) = true) : insertPair x l = x :: l := by
  cases l with
  | nil => rfl
  | cons y t => simp [insertPair, sortedPairsB_head h]

theorem sortPairs_eq_self : ∀ l : List IPRangePair, sortedPairsB l = true →
    sortPairs l = l
  | [], _ => rfl
  | x :: xs, h => by
    have hxs := sortedPairsB_tail h
    simp only [sortPairs, sortPairs_eq_self xs hxs]
    exact insertPair_sorted_head h

/-! ### Gap and canonicity lemmas -/

theorem gapFrom_mono {m m' : Nat} (hmm : m' ≤ m) :
    ∀ l : List IPRangePair, gapFrom m l = true → gapFrom m' l = true
  | [], _ => rfl
  | (s, e) :: t, h => by
    simp only [gapFrom, Bool.and_eq_true, decide_eq_true_eq] at h ⊢
    exact ⟨by omega, h.2⟩

theorem gappedB_of_gapFrom {m : Nat} {l : List IPRangePair}
    (h : gapFrom m l = true) : gappedB l = true := by
  cases l with
  | nil => rfl
  | cons hd t =>
    obtain ⟨s, e⟩ := hd
    simp only [gapFrom, Bool.and_eq_true] at h
    exact h.2

theorem gapFrom_covers_lb :
    ∀ (l : List IPRangePair) (m n : Nat), validB l = true →
      gapFrom m l = true → coversB l n = true → m < n
  | [], _, _, _, _, hc => by simp [coversB] at hc
  | (s, e) :: t, m, n, hv, hg, hc => by
    simp only [coversB, List.any_cons, Bool.or_eq_true, Bool.and_eq_true,
      decide_eq_true_eq] at hc
    simp only [gapFrom, Bool.and_eq_true, decide_eq_true_eq] at hg
    simp only [validB, List.all_cons, Bool.and_eq_true, decide_eq_true_eq] at hv
    rcases hc with ⟨h1, h2⟩ | hc
    · omega
    · have := gapFrom_covers_lb t e.ip n (by simpa [validB] using hv.2) hg.2
        (by simpa [coversB] using hc)
      omega

theorem gapped_valid_sorted :
    ∀ l : List IPRangePair, validB l = true → gappedB l = true →
      sortedPairsB l = true
  | [], _, _ => rfl
  | [_], _, _ => rfl
  | (s, e) :: (s2, e2) :: t, hv, hg => by
    simp only [validB, List.all_cons, Bool.and_eq_true, decide_eq_true_eq] at hv
    simp only [gappedB, gapFrom, Bool.and_eq_true, decide_eq_true_eq] at hg
    simp only [sortedPairsB, Bool.and_eq_true]
    constructor
    · simp only [keyLeB, Bool.or_eq_true, Bool.and_eq_true, decide_eq_true_eq]
      omega
    · exact gapped_valid_sorted ((s2, e2) :: t)
        (by simp only [validB, List.all_cons, Bool.and_eq_true,
              decide_eq_true_eq]
            exact ⟨hv.2.1, hv.2.2⟩)
        (by simp only [gappedB]; exact hg.2)

theorem ifaceMax_cases (a b : Iface) : ifaceMax a b = a ∨ ifaceMax a b = b := by
  unfold ifaceMax
  split
  · exact Or.inr rfl
  · exact Or.inl rfl

/-- Monotonicity of the network address in the address value, at a fixed
prefix length. -/
theorem netAddr_mono {a b : Iface} (hp : a.plen = b.plen) (hip : a.ip ≤ b.ip) :
    netAddr a ≤ netAddr b := by
  simp only [netAddr, hp]
  exact Nat.mul_le_mul_right _ (Nat.div_le_div_right hip)

/-- With equal prefix lengths, the Python interface comparison degenerates to
comparison of the address values. -/
theorem ifaceLt_iff_of_eq_plen {a b : Iface} (h : a.plen = b.plen) :
    ifaceLt a b = true ↔ a.ip < b.ip := by
  simp only [ifaceLt, h, Bool.or_eq_true, Bool.and_eq_true, decide_eq_true_eq,
    true_and, lt_irrefl, false_or, and_true, eq_self_iff_true]
  rcases Nat.lt_trichotomy a.ip b.ip with hab | hab | hab
  · have h1 := netAddr_mono h (Nat.le_of_lt hab)
    omega
  · have h1 : netAddr a = netAddr b := by simp only [netAddr, h, hab]
    omega
  · have h1 := netAddr_mono h.symm (Nat.le_of_lt hab)
    omega

theorem ifaceMax_ip_of_eq_plen {a b : Iface} (h : a.plen = b.plen) :
    (ifaceMax a b).ip = max a.ip b.ip := by
  unfold ifaceMax
  by_cases hab : ifaceLt a b = true
  · have := (ifaceLt_iff_of_eq_plen h).mp hab
    simp [hab, Nat.max_eq_right (Nat.le_of_lt this)]
  · have : ¬ a.ip < b.ip := fun hc =>
      hab ((ifaceLt_iff_of_eq_plen h).mpr hc)
    simp [hab, Nat.max_eq_left (Nat.le_of_not_lt this)]

theorem mergeStep_keyLe {acc cur x : IPRangePair}
    (h1 : keyLeB acc cur = true) (h2 : keyLeB cur x = true)
    (hval : cur.1.ip ≤ cur.2.ip) :
    keyLeB (acc.1, ifaceMax acc.2 cur.2) x = true := by
  have hm := ifaceMax_cases acc.2 cur.2
  simp only [keyLeB, Bool.or_eq_true, Bool.and_eq_true, decide_eq_true_eq]
    at h1 h2 ⊢
  rcases hm with hm | hm <;> rw [hm] <;> omega

/-- Context re-establishment for one merging step: merging the next range into
the accumulator keeps the list sorted and valid. -/
theorem mergeAcc_sorted_valid {a1 a2 cs ce : Iface}
    {rest : List IPRangePair}
    (hs : sortedPairsB ((a1, a2) :: (cs, ce) :: rest) = true)
    (hv : validB ((a1, a2) :: (cs, ce) :: rest) = true) :
    sortedPairsB ((a1, ifaceMax a2 ce) :: rest) = true ∧
      validB ((a1, ifaceMax a2 ce) :: rest) = true := by
  have hk : keyLeB (a1, a2) (cs, ce) = true := sortedPairsB_head hs
  simp only [validB, List.all_cons, Bool.and_eq_true, decide_eq_true_eq] at hv
  constructor
  · cases rest with
    | nil => rfl
    | cons x rest2 =>
      have hk2 : keyLeB (cs, ce) x = true :=
        sortedPairsB_head (sortedPairsB_tail hs)
      simp only [sortedPairsB, Bool.and_eq_true]
      constructor
      · exact mergeStep_keyLe hk hk2 hv.2.1
      · have := sortedPairsB_tail (sortedPairsB_tail hs)
        simp only [sortedPairsB, Bool.and_eq_true] at this ⊢
        exact this
  · simp only [validB, List.all_cons, Bool.and_eq_true, decide_eq_true_eq]
    refine ⟨?_, hv.2.2⟩
    simp only [keyLeB, Bool.or_eq_true, Bool.and_eq_true, decide_eq_true_eq]
      at hk
    rcases ifaceMax_cases a2 ce with hm | hm <;> rw [hm] <;> omega

/-- Canonical shape of the merging walk on a sorted, valid input: the result
starts at the accumulator's start and is a valid, gapped (canonical) list. -/
theorem mergeAdj_spec :
    ∀ (t : List IPRangePair) (a1 a2 : Iface),
      sortedPairsB ((a1, a2) :: t) = true → validB ((a1, a2) :: t) = true →
      ∃ e2 rest2, mergeAdj (a1, a2) t = (a1, e2) :: rest2 ∧
        validB (mergeAdj (a1, a2) t) = true ∧
        gappedB (mergeAdj (a1, a2) t) = true
  | [], a1, a2, _, hv => ⟨a2, [], rfl, hv, rfl⟩
  | (cs, ce) :: rest, a1, a2, hs, hv => by
    by_cases hc : cs.ip ≤ a2.ip + 1
    · have heq : mergeAdj (a1, a2) ((cs, ce) :: rest) =
          mergeAdj (a1, ifaceMax a2 ce) rest := by
        simp [mergeAdj, hc]
      obtain ⟨hsorted, hvalid⟩ := mergeAcc_sorted_valid hs hv
      obtain ⟨e2, rest2, hEq, hVal, hGap⟩ :=
        mergeAdj_spec rest a1 (ifaceMax a2 ce) hsorted hvalid
      rw [heq]
      exact ⟨e2, rest2, hEq, hVal, hGap⟩
    · have heq : mergeAdj (a1, a2) ((cs, ce) :: rest) =
          (a1, a2) :: mergeAdj (cs, ce) rest := by
        simp [mergeAdj, hc]
      have hvt : validB ((cs, ce) :: rest) = true := by
        simp only [validB, List.all_cons, Bool.and_eq_true] at hv ⊢
        exact hv.2
      obtain ⟨e2, rest2, hEq, hVal, hGap⟩ :=
        mergeAdj_spec rest cs ce (sortedPairsB_tail hs) hvt
      rw [heq, hEq]
      refine ⟨a2, (cs, e2) :: rest2, rfl, ?_, ?_⟩
      · rw [hEq] at hVal
        simp only [validB, List.all_cons, Bool.and_eq_true] at hv hVal ⊢
        exact ⟨hv.1, hVal⟩
      · rw [hEq] at hGap
        show gapFrom a2.ip ((cs, e2) :: rest2) = true
        simp only [gapFrom, Bool.and_eq_true, decide_eq_true_eq]
        exact ⟨by omega, hGap⟩

theorem bool_eq_of_iff {a b : Bool} (h : a = true ↔ b = true) : a = b :=
  Bool.eq_iff_iff.mpr (by simpa using h)

/-- The merging walk preserves any element predicate that is closed under the
accumulator combination. -/
theorem mergeAdj_all (f : IPRangePair → Bool)
    (hf : ∀ x1 x2 y1 y2 : Iface, f (x1, x2) = true → f (y1, y2) = true →
      f (x1, ifaceMax x2 y2) = true) :
    ∀ (t : List IPRangePair) (a1 a2 : Iface),
      ((a1, a2) :: t).all f = true → (mergeAdj (a1, a2) t).all f = true
  | [], a1, a2, h => by simpa [mergeAdj] using h
  | (cs, ce) :: rest, a1, a2, h => by
    simp only [List.all_cons, Bool.and_eq_true] at h
    by_cases hc : cs.ip ≤ a2.ip + 1
    · have heq : mergeAdj (a1, a2) ((cs, ce) :: rest) =
          mergeAdj (a1, ifaceMax a2 ce) rest := by
        simp [mergeAdj, hc]
      rw [heq]
      refine mergeAdj_all f hf rest a1 (ifaceMax a2 ce) ?_
      simp only [List.all_cons, Bool.and_eq_true]
      exact ⟨hf a1 a2 cs ce h.1 h.2.1, h.2.2⟩
    · have heq : mergeAdj (a1, a2) ((cs, ce) :: rest) =
          (a1, a2) :: mergeAdj (cs, ce) rest := by
        simp [mergeAdj, hc]
      rw [heq]
      simp only [List.all_cons, Bool.and_eq_true]
      refine ⟨h.1, mergeAdj_all f hf rest cs ce ?_⟩
      simp only [List.all_cons, Bool.and_eq_true]
      exact h.2

theorem sort_and_merge_all (f : IPRangePair → Bool)
    (hf : ∀ x1 x2 y1 y2 : Iface, f (x1, x2) = true → f (y1, y2) = true →
      f (x1, ifaceMax x2 y2) = true)
    (l : List IPRangePair) (h : l.all f = true) :
    (sort_and_merge_ip_ranges l).all f = true := by
  unfold sort_and_merge_ip_ranges
  cases hsp : sortPairs l with
  | nil => rfl
  | cons hd t =>
    have hall : (hd :: t).all f = true := by
      rw [← hsp, sortPairs_all]
      exact h
    obtain ⟨h1, h2⟩ := hd
    exact mergeAdj_all f hf t h1 h2 hall

theorem uniformB_sort_and_merge {P : Nat} {l : List IPRangePair}
    (h : uniformB P l = true) :
    uniformB P (sort_and_merge_ip_ranges l) = true := by
  refine sort_and_merge_all _ ?_ l h
  intro x1 x2 y1 y2 hx hy
  simp only [Bool.and_eq_true, decide_eq_true_eq] at hx hy ⊢
  rcases ifaceMax_cases x2 y2 with hm | hm <;> rw [hm] <;>
    exact ⟨hx.1, by omega⟩

/-- The output of `sort_and_merge_ip_ranges` on a valid input is canonical:
valid and gapped. -/
theorem sort_and_merge_canonical {l : List IPRangePair}
    (hv : validB l = true) :
    validB (sort_and_merge_ip_ranges l) = true ∧
      gappedB (sort_and_merge_ip_ranges l) = true := by
  unfold sort_and_merge_ip_ranges
  cases hsp : sortPairs l with
  | nil => exact ⟨rfl, rfl⟩
  | cons hd t =>
    have hsorted : sortedPairsB (hd :: t) = true := by
      rw [← hsp]
      exact sortPairs_sorted l
    have hvalid : validB (hd :: t) = true := by
      rw [← hsp, validB_sortPairs]
      exact hv
    obtain ⟨h1, h2⟩ := hd
    obtain ⟨e2, rest2, _, hVal, hGap⟩ := mergeAdj_spec t h1 h2 hsorted hvalid
    exact ⟨hVal, hGap⟩

theorem mergeAdj_eq_self :
    ∀ (t : List IPRangePair) (a1 a2 : Iface),
      validB ((a1, a2) :: t) = true → gappedB ((a1, a2) :: t) = true →
      mergeAdj (a1, a2) t = (a1, a2) :: t
  | [], _, _, _, _ => rfl
  | (cs, ce) :: rest, a1, a2, hv, hg => by
    simp only [gappedB, gapFrom, Bool.and_eq_true, decide_eq_true_eq] at hg
    have hc : ¬ cs.ip ≤ a2.ip + 1 := by omega
    have hvt : validB ((cs, ce) :: rest) = true := by
      simp only [validB, List.all_cons, Bool.and_eq_true] at hv ⊢
      exact hv.2
    have hgt : gappedB ((cs, ce) :: rest) = true := by
      simp only [gappedB]
      exact hg.2
    simp only [mergeAdj, hc, if_false]
    rw [mergeAdj_eq_self rest cs ce hvt hgt]

/-- Canonical identity: `sort_and_merge` returns a valid, gapped list
unchanged. -/
theorem sort_and_merge_eq_self {l : List IPRangePair}
    (hv : validB l = true) (hg : gappedB l = true) :
    sort_and_merge_ip_ranges l = l := by
  have hs := gapped_valid_sorted l hv hg
  unfold sort_and_merge_ip_ranges
  rw [sortPairs_eq_self l hs]
  cases l with
  | nil => rfl
  | cons hd t =>
    obtain ⟨h1, h2⟩ := hd
    exact mergeAdj_eq_self t h1 h2 hv hg

theorem cover_merge_arith {b1 b2 c1 c2 n : Nat} (R : Prop)
    (hc : c1 ≤ b2 + 1) (h1 : b1 ≤ c1) (h2 : b1 ≤ b2) (h3 : c1 ≤ c2) :
    ((b1 ≤ n ∧ n ≤ max b2 c2) ∨ R) ↔
      ((b1 ≤ n ∧ n ≤ b2) ∨ ((c1 ≤ n ∧ n ≤ c2) ∨ R)) := by
  by_cases hR : R
  · simp [hR]
  · simp only [hR, or_false]
    omega

/-- With a uniform prefix length, the merging walk preserves the covered
address set. -/
theorem mergeAdj_covers :
    ∀ (t : List IPRangePair) (a1 a2 : Iface) (P : Nat),
      sortedPairsB ((a1, a2) :: t) = true → validB ((a1, a2) :: t) = true →
      uniformB P ((a1, a2) :: t) = true →
      ∀ n, coversB (mergeAdj (a1, a2) t) n = coversB ((a1, a2) :: t) n
  | [], _, _, _, _, _, _, _ => rfl
  | (cs, ce) :: rest, a1, a2, P, hs, hv, hu, n => by
    by_cases hc : cs.ip ≤ a2.ip + 1
    · have heq : mergeAdj (a1, a2) ((cs, ce) :: rest) =
          mergeAdj (a1, ifaceMax a2 ce) rest := by
        simp [mergeAdj, hc]
      obtain ⟨hsorted, hvalid⟩ := mergeAcc_sorted_valid hs hv
      simp only [uniformB, List.all_cons, Bool.and_eq_true, decide_eq_true_eq]
        at hu
      have hplen : a2.plen = ce.plen := by omega
      have huni : uniformB P ((a1, ifaceMax a2 ce) :: rest) = true := by
        simp only [uniformB, List.all_cons, Bool.and_eq_true,
          decide_eq_true_eq]
        rcases ifaceMax_cases a2 ce with hm | hm <;> rw [hm] <;>
          exact ⟨⟨by omega, by omega⟩, hu.2.2⟩
      have ih := mergeAdj_covers rest a1 (ifaceMax a2 ce) P hsorted hvalid
        huni n
      rw [heq, ih]
      have hM : (ifaceMax a2 ce).ip = max a2.ip ce.ip :=
        ifaceMax_ip_of_eq_plen hplen
      apply bool_eq_of_iff
      have hk : keyLeB (a1, a2) (cs, ce) = true := sortedPairsB_head hs
      simp only [keyLeB, Bool.or_eq_true, Bool.and_eq_true,
        decide_eq_true_eq] at hk
      simp only [validB, List.all_cons, Bool.and_eq_true,
        decide_eq_true_eq] at hv
      simp only [coversB, List.any_cons, Bool.or_eq_true, Bool.and_eq_true,
        decide_eq_true_eq]
      rw [hM]
      exact cover_merge_arith _ hc (by omega) hv.1 hv.2.1
    · have heq : mergeAdj (a1, a2) ((cs, ce) :: rest) =
          (a1, a2) :: mergeAdj (cs, ce) rest := by
        simp [mergeAdj, hc]
      have hvt : validB ((cs, ce) :: rest) = true := by
        simp only [validB, List.all_cons, Bool.and_eq_true] at hv ⊢
        exact hv.2
      have hut : uniformB P ((cs, ce) :: rest) = true := by
        simp only [uniformB, List.all_cons, Bool.and_eq_true] at hu ⊢
        exact hu.2
      have ih := mergeAdj_covers rest cs ce P (sortedPairsB_tail hs) hvt hut n
      rw [heq]
      simp only [coversB, List.any_cons] at ih ⊢
      rw [ih]

/-- With a uniform prefix length, `sort_and_merge` preserves the covered
address set. -/
theorem sort_and_merge_covers {P : Nat} {l : List IPRangePair}
    (hv : validB l = true) (hu : uniformB P l = true) (n : Nat) :
    coversB (sort_and_merge_ip_ranges l) n = coversB l n := by
  unfold sort_and_merge_ip_ranges
  cases hsp : sortPairs l with
  | nil =>
    have : coversB (sortPairs l) n = coversB l n := coversB_sortPairs l n
    rw [hsp] at this
    exact this
  | cons hd t =>
    have hsorted : sortedPairsB (hd :: t) = true := by
      rw [← hsp]
      exact sortPairs_sorted l
    have hvalid : validB (hd :: t) = true := by
      rw [← hsp, validB_sortPairs]
      exact hv
    have huni : uniformB P (hd :: t) = true := by
      rw [← hsp, uniformB_sortPairs]
      exact hu
    have hcov : coversB (hd :: t) n = coversB l n := by
      rw [← hsp]
      exact coversB_sortPairs l n
    obtain ⟨h1, h2⟩ := hd
    rw [mergeAdj_covers t h1 h2 P hsorted hvalid huni n, hcov]

/-! ### Lemmas about the address-removal scan -/

theorem removeScan_covers (a : Nat) :
    ∀ (l : List IPRangePair) (n : Nat),
      coversB (removeScan a l).1 n = (coversB l n && decide (n ≠ a))
  | [], n => by simp [removeScan, coversB]
  | (s, e) :: rest, n => by
    have ih := removeScan_covers a rest n
    simp only [coversB] at ih ⊢
    cases hcb : (decide (s.ip ≤ a) && decide (a ≤ e.ip)) with
    | true =>
      have hc : s.ip ≤ a ∧ a ≤ e.ip := by simpa using hcb
      simp only [removeScan, hcb, if_true]
      apply bool_eq_of_iff
      by_cases h1 : s.ip < a <;> by_cases h2 : e.ip > a <;>
        simp only [removePieces, h1, h2, if_true, if_false, List.nil_append,
          List.append_nil, List.any_append, List.any_cons, List.any_nil,
          List.singleton_append, List.cons_append, Bool.or_eq_true,
          Bool.and_eq_true, decide_eq_true_eq, Bool.false_or, Bool.or_false,
          ih] <;>
        by_cases hR : rest.any (fun p => decide (p.1.ip ≤ n) &&
          decide (n ≤ p.2.ip)) = true <;>
        by_cases hna : n = a <;>
        simp only [hR, hna, Bool.false_eq_true, true_and, and_true, false_and,
          and_false, true_or, or_true, false_or, or_false, ne_eq,
          eq_self_iff_true, not_true, not_false_iff, iff_true, iff_false,
          true_iff, false_iff, not_or, not_and, not_lt, not_le] <;> omega
    | false =>
      have hc : ¬ (s.ip ≤ a ∧ a ≤ e.ip) := by
        intro hcc
        simp [hcc.1, hcc.2] at hcb
      simp only [removeScan, hcb, Bool.false_eq_true, if_false]
      apply bool_eq_of_iff
      simp only [List.any_cons, Bool.or_eq_true, Bool.and_eq_true,
        decide_eq_true_eq, ih]
      by_cases hR : rest.any (fun p => decide (p.1.ip ≤ n) &&
        decide (n ≤ p.2.ip)) = true <;>
      by_cases hna : n = a <;>
      simp only [hR, hna, Bool.false_eq_true, true_and, and_true, false_and,
        and_false, true_or, or_true, false_or, or_false, ne_eq,
        eq_self_iff_true, not_true, not_false_iff, iff_true, iff_false,
        true_iff, false_iff, not_or, not_and, not_lt, not_le] <;> omega

theorem removeScan_found (a : Nat) :
    ∀ l : List IPRangePair, (removeScan a l).2 = coversB l a
  | [] => rfl
  | (s, e) :: rest => by
    have ih := removeScan_found a rest
    cases hcb : (decide (s.ip ≤ a) && decide (a ≤ e.ip)) with
    | true =>
      simp only [removeScan, hcb, if_true, coversB, List.any_cons, hcb]
      simp
    | false =>
      simp only [removeScan, hcb, Bool.false_eq_true, if_false, coversB,
        List.any_cons]
      simp only [coversB] at ih
      rw [ih]
      simp

theorem removeScan_valid (a : Nat) :
    ∀ l : List IPRangePair, validB l = true →
      validB (removeScan a l).1 = true
  | [], _ => rfl
  | (s, e) :: rest, hv => by
    simp only [validB, List.all_cons, Bool.and_eq_true, decide_eq_true_eq]
      at hv
    have ih := removeScan_valid a rest (by
      simp only [validB]
      exact hv.2)
    cases hcb : (decide (s.ip ≤ a) && decide (a ≤ e.ip)) with
    | true =>
      have hc : s.ip ≤ a ∧ a ≤ e.ip := by simpa using hcb
      simp only [removeScan, hcb, if_true]
      simp only [validB, List.all_append, Bool.and_eq_true] at ih ⊢
      refine ⟨?_, ih⟩
      by_cases h1 : s.ip < a <;> by_cases h2 : e.ip > a <;>
        simp only [removePieces, h1, h2, if_true, if_false, List.nil_append,
          List.append_nil, List.all_append, List.all_cons, List.all_nil,
          Bool.and_eq_true, decide_eq_true_eq, and_true, true_and] <;>
        omega
    | false =>
      simp only [removeScan, hcb, Bool.false_eq_true, if_false]
      simp only [validB, List.all_cons, Bool.and_eq_true, decide_eq_true_eq]
        at ih ⊢
      exact ⟨hv.1, ih⟩

theorem removeScan_uniform (a P : Nat) :
    ∀ l : List IPRangePair, uniformB P l = true →
      uniformB P (removeScan a l).1 = true
  | [], _ => rfl
  | (s, e) :: rest, hu => by
    simp only [uniformB, List.all_cons, Bool.and_eq_true, decide_eq_true_eq]
      at hu
    have ih := removeScan_uniform a P rest (by
      simp only [uniformB]
      exact hu.2)
    cases hcb : (decide (s.ip ≤ a) && decide (a ≤ e.ip)) with
    | true =>
      simp only [removeScan, hcb, if_true]
      simp only [uniformB, List.all_append, Bool.and_eq_true] at ih ⊢
      refine ⟨?_, ih⟩
      by_cases h1 : s.ip < a <;> by_cases h2 : e.ip > a <;>
        simp only [removePieces, h1, h2, if_true, if_false, List.nil_append,
          List.append_nil, List.all_append, List.all_cons, List.all_nil,
          Bool.and_eq_true, decide_eq_true_eq, and_true, true_and] <;>
        simp [hu.1.1, hu.1.2]
    | false =>
      simp only [removeScan, hcb, Bool.false_eq_true, if_false]
      simp only [uniformB, List.all_cons, Bool.and_eq_true,
        decide_eq_true_eq] at ih ⊢
      exact ⟨⟨hu.1.1, hu.1.2⟩, ih⟩

theorem removeScan_gapFrom (a : Nat) :
    ∀ (l : List IPRangePair) (m : Nat), validB l = true →
      gapFrom m l = true → gapFrom m (removeScan a l).1 = true
  | [], _, _, _ => rfl
  | (s, e) :: rest, m, hv, hg => by
    simp only [validB, List.all_cons, Bool.and_eq_true, decide_eq_true_eq]
      at hv
    simp only [gapFrom, Bool.and_eq_true, decide_eq_true_eq] at hg
    have hvt : validB rest = true := by
      simp only [validB]
      exact hv.2
    have ih := removeScan_gapFrom a rest e.ip hvt hg.2
    cases hcb : (decide (s.ip ≤ a) && decide (a ≤ e.ip)) with
    | true =>
      have hc : s.ip ≤ a ∧ a ≤ e.ip := by simpa using hcb
      simp only [removeScan, hcb, if_true]
      by_cases h1 : s.ip < a <;> by_cases h2 : e.ip > a <;>
        simp only [removePieces, h1, h2, if_true, if_false, List.nil_append,
          List.append_nil, List.singleton_append, List.cons_append,
          gapFrom, Bool.and_eq_true, decide_eq_true_eq]
      · exact ⟨by omega, by omega, ih⟩
      · refine ⟨by omega, ?_⟩
        exact gapFrom_mono (by omega : a - 1 ≤ e.ip) _ ih
      · exact ⟨by omega, ih⟩
      · exact gapFrom_mono (by omega : m ≤ e.ip) _ ih
    | false =>
      simp only [removeScan, hcb, Bool.false_eq_true, if_false]
      simp only [gapFrom, Bool.and_eq_true, decide_eq_true_eq]
      exact ⟨hg.1, ih⟩

theorem removeScan_gapped (a : Nat) (l : List IPRangePair)
    (hv : validB l = true) (hg : gappedB l = true) :
    gappedB (removeScan a l).1 = true := by
  cases l with
  | nil => rfl
  | cons hd rest =>
    obtain ⟨s, e⟩ := hd
    simp only [validB, List.all_cons, Bool.and_eq_true, decide_eq_true_eq]
      at hv
    have hgt : gapFrom e.ip rest = true := hg
    have hvt : validB rest = true := by
      simp only [validB]
      exact hv.2
    have ih := removeScan_gapFrom a rest e.ip hvt hgt
    cases hcb : (decide (s.ip ≤ a) && decide (a ≤ e.ip)) with
    | true =>
      have hc : s.ip ≤ a ∧ a ≤ e.ip := by simpa using hcb
      simp only [removeScan, hcb, if_true]
      by_cases h1 : s.ip < a <;> by_cases h2 : e.ip > a <;>
        simp only [removePieces, h1, h2, if_true, if_false, List.nil_append,
          List.append_nil, List.singleton_append, List.cons_append]
      · show gapFrom (a - 1) ((Iface.mk (a + 1) s.plen, e) ::
          (removeScan a rest).1) = true
        simp only [gapFrom, Bool.and_eq_true, decide_eq_true_eq]
        exact ⟨by omega, ih⟩
      · show gapFrom (a - 1) (removeScan a rest).1 = true
        exact gapFrom_mono (by omega : a - 1 ≤ e.ip) _ ih
      · show gapFrom e.ip (removeScan a rest).1 = true
        exact ih
      · exact gappedB_of_gapFrom ih
    | false =>
      simp only [removeScan, hcb, Bool.false_eq_true, if_false]
      show gapFrom e.ip (removeScan a rest).1 = true
      exact ih

theorem remove_eq_ok {ranges : List IPRangePair} {i : Iface}
    (h : coversB ranges i.ip = true) :
    remove_ip_from_ranges ranges i = .ok (removeScan i.ip ranges).1 := by
  unfold remove_ip_from_ranges
  rw [removeScan_found i.ip ranges, h]
  rfl

theorem remove_eq_error {ranges : List IPRangePair} {i : Iface}
    (h : coversB ranges i.ip = false) :
    remove_ip_from_ranges ranges i = .error (.ipNotInList i ranges) := by
  unfold remove_ip_from_ranges
  rw [removeScan_found i.ip ranges, h]
  rfl

/-- Bundled preservation for a successful removal from a canonical list. -/
theorem remove_preserves {P : Nat} {l l' : List IPRangePair} {i : Iface}
    (hv : validB l = true) (hg : gappedB l = true) (hu : uniformB P l = true)
    (h : remove_ip_from_ranges l i = .ok l') :
    validB l' = true ∧ gappedB l' = true ∧ uniformB P l' = true ∧
      (∀ n, coversB l' n = (coversB l n && decide (n ≠ i.ip))) ∧
      coversB l i.ip = true := by
  have hfound := removeScan_found i.ip l
  unfold remove_ip_from_ranges at h
  cases hflag : (removeScan i.ip l).2 with
  | false =>
    rw [hflag] at h
    simp at h
  | true =>
    rw [hflag] at h
    simp only [if_true] at h
    have hl' : l' = (removeScan i.ip l).1 := by
      cases h
      rfl
    subst hl'
    refine ⟨removeScan_valid i.ip l hv, removeScan_gapped i.ip l hv hg,
      removeScan_uniform i.ip P l hu, removeScan_covers i.ip l, ?_⟩
    rw [← hfound, hflag]

/-- The scan on a list with a unique containing range: everything else passes
through unchanged in place, and the containing range is replaced by its
pieces. -/
theorem removeScan_unique (a : Nat) (s e : Iface) (l2 : List IPRangePair)
    (hin : s.ip ≤ a ∧ a ≤ e.ip)
    (hout2 : ∀ pr ∈ l2, ¬ (pr.1.ip ≤ a ∧ a ≤ pr.2.ip)) :
    ∀ l1 : List IPRangePair,
      (∀ pr ∈ l1, ¬ (pr.1.ip ≤ a ∧ a ≤ pr.2.ip)) →
      removeScan a (l1 ++ (s, e) :: l2) =
        (l1 ++ removePieces s e a ++ l2, true)
  | [], _ => by
    have htail : removeScan a l2 = (l2, false) := by
      clear hin
      induction l2 with
      | nil => rfl
      | cons hd t ihh =>
        obtain ⟨s2, e2⟩ := hd
        have hhd := hout2 (s2, e2) (List.mem_cons_self _ _)
        have hcb : (decide (s2.ip ≤ a) && decide (a ≤ e2.ip)) = false := by
          simp only [Bool.and_eq_false_iff, decide_eq_false_iff_not]
          by_cases hx : s2.ip ≤ a
          · exact Or.inr fun hy => hhd ⟨hx, hy⟩
          · exact Or.inl hx
        have ht := ihh fun pr hpr => hout2 pr (List.mem_cons_of_mem _ hpr)
        simp only [removeScan, hcb, Bool.false_eq_true, if_false, ht]
    have hcb : (decide (s.ip ≤ a) && decide (a ≤ e.ip)) = true := by
      simp [hin.1, hin.2]
    simp only [List.nil_append, removeScan, hcb, if_true, htail]
  | hd :: t, hout1 => by
    obtain ⟨s1, e1⟩ := hd
    have hhd := hout1 (s1, e1) (List.mem_cons_self _ _)
    have hcb : (decide (s1.ip ≤ a) && decide (a ≤ e1.ip)) = false := by
      simp only [Bool.and_eq_false_iff, decide_eq_false_iff_not]
      by_cases hx : s1.ip ≤ a
      · exact Or.inr fun hy => hhd ⟨hx, hy⟩
      · exact Or.inl hx
    have ih := removeScan_unique a s e l2 hin hout2 t
      fun pr hpr => hout1 pr (List.mem_cons_of_mem _ hpr)
    simp only [List.cons_append, removeScan, hcb, Bool.false_eq_true,
      if_false, List.append_eq, ih]

/-! ### Disjointness and the pool invariant -/

/-- Pairwise separation of two range lists (the decidable rendering of
"no address is covered by both"). -/
def disjointRangesB (l1 l2 : List IPRangePair) : Bool :=
  l1.all fun a => l2.all fun b => a.2.ip < b.1.ip || b.2.ip < a.1.ip

theorem disjoint_covers {l1 l2 : List IPRangePair}
    (hd : disjointRangesB l1 l2 = true) {n : Nat}
    (h1 : coversB l1 n = true) : coversB l2 n = false := by
  simp only [disjointRangesB, List.all_eq_true, Bool.or_eq_true,
    decide_eq_true_eq] at hd
  simp only [coversB, List.any_eq_true, Bool.and_eq_true,
    decide_eq_true_eq] at h1
  obtain ⟨a, ha, hcov⟩ := h1
  simp only [coversB, List.any_eq_false, Bool.and_eq_true, decide_eq_true_eq,
    not_and, not_le]
  intro b hb hbn
  have := hd a ha b hb
  omega

theorem disjointRangesB_of_covers {l1 l2 : List IPRangePair}
    (hv1 : validB l1 = true) (hv2 : validB l2 = true)
    (h : ∀ n, coversB l1 n = true → coversB l2 n = false) :
    disjointRangesB l1 l2 = true := by
  simp only [disjointRangesB, List.all_eq_true, Bool.or_eq_true,
    decide_eq_true_eq]
  intro a ha b hb
  simp only [validB, List.all_eq_true, decide_eq_true_eq] at hv1 hv2
  have hva := hv1 a ha
  have hvb := hv2 b hb
  by_contra hcon
  push_neg at hcon
  have hcov1 : coversB l1 (max a.1.ip b.1.ip) = true := by
    simp only [coversB, List.any_eq_true, Bool.and_eq_true,
      decide_eq_true_eq]
    exact ⟨a, ha, by omega⟩
  have hcov2 := h _ hcov1
  simp only [coversB, List.any_eq_false, Bool.and_eq_true,
    decide_eq_true_eq, not_and, not_le] at hcov2
  have := hcov2 b hb
  omega

/-- The pool invariant of the spec, at prefix length `P`: both lists are
canonical (valid intervals, sorted with gaps), all endpoints carry prefix `P`,
and the two lists cover disjoint address sets. -/
def PoolWF (P : Nat) (p : IPPool) : Prop :=
  validB p.available_ip_pool = true ∧ gappedB p.available_ip_pool = true ∧
    uniformB P p.available_ip_pool = true ∧
    validB p.used_ips = true ∧ gappedB p.used_ips = true ∧
    uniformB P p.used_ips = true ∧
    disjointRangesB p.available_ip_pool p.used_ips = true

/-- The set of addresses held by the pool (available or used). -/
def poolCoverB (p : IPPool) (n : Nat) : Bool :=
  coversB p.available_ip_pool n || coversB p.used_ips n

instance (P : Nat) (p : IPPool) : Decidable (PoolWF P p) := by
  unfold PoolWF
  infer_instance

/-! ### Closed form of the list expansion -/

/-- `k` consecutive interfaces starting at address `s`. -/
def expandFrom (plen : Nat) : Nat → Nat → List Iface
  | _, 0 => []
  | s, k + 1 => Iface.mk s plen :: expandFrom plen (s + 1) k

/-- The individual interfaces of one range, in ascending address order. -/
def expandRange (plen s e : Nat) : List Iface :=
  expandFrom plen s (e + 1 - s)

/-- The individual interfaces of a range list, in list order. -/
def expandAll : List IPRangePair → List Iface
  | [] => []
  | (s, e) :: t => expandRange s.plen s.ip e.ip ++ expandAll t

/-- Number of addresses covered by a range list (with multiplicity). -/
def ipCount : List IPRangePair → Nat
  | [] => 0
  | (s, e) :: t => (e.ip + 1 - s.ip) + ipCount t

theorem expandFrom_len (plen : Nat) :
    ∀ (k s : Nat), (expandFrom plen s k).length = k
  | 0, _ => rfl
  | k + 1, s => by
    simp only [expandFrom, List.length_cons, expandFrom_len plen k (s + 1)]

theorem expandRange_len (plen s e : Nat) :
    (expandRange plen s e).length = e + 1 - s :=
  expandFrom_len plen (e + 1 - s) s

theorem expandFrom_mem (plen : Nat) :
    ∀ (k s : Nat), ∀ i ∈ expandFrom plen s k,
      i.plen = plen ∧ s ≤ i.ip ∧ i.ip < s + k
  | 0, s, i, hi => by simp [expandFrom] at hi
  | k + 1, s, i, hi => by
    rcases List.mem_cons.mp hi with hh | ht
    · subst hh
      exact ⟨rfl, Nat.le_refl s, by show s < s + (k + 1); omega⟩
    · have := expandFrom_mem plen k (s + 1) i ht
      exact ⟨this.1, by omega, by omega⟩

/-- Every nonempty range stops strictly below the maximal IPv4 address
255.255.255.255, so its expansion never runs the fatal increment. -/
def noMaxEndB (l : List IPRangePair) : Bool :=
  l.all fun pr => decide (pr.2.ip < 4294967295) || decide (pr.2.ip < pr.1.ip)

theorem listIpsRange_ok (p : IPPool) (plen : Nat) :
    ∀ (k s e : Nat) (acc : List Iface), e + 1 - s = k →
      acc.length + k ≤ 65537 → (k = 0 ∨ e < 4294967295) →
      listIpsRange p plen s e acc = .ok (acc ++ expandRange plen s e) := by
  intro k
  induction k with
  | zero =>
    intro s e acc hk hlen _
    unfold listIpsRange
    rw [dif_neg (by omega)]
    unfold expandRange
    rw [hk]
    simp [expandFrom]
  | succ k2 ih =>
    intro s e acc hk hlen hbound
    have he : e < 4294967295 := by
      rcases hbound with h0 | h0
      · omega
      · exact h0
    unfold listIpsRange
    rw [dif_pos (by omega)]
    rw [if_neg (by omega)]
    rw [if_neg (by omega)]
    rw [ih (s + 1) e (acc ++ [Iface.mk s plen]) (by omega)
      (by simp only [List.length_append, List.length_cons, List.length_nil]
          omega)
      (by omega)]
    unfold expandRange
    rw [hk, show e + 1 - (s + 1) = k2 by omega]
    simp [expandFrom]

theorem listIpsRange_err (p : IPPool) (plen : Nat) :
    ∀ (k s e : Nat) (acc : List Iface), e + 1 - s = k → k ≠ 0 →
      e ≤ 4294967295 → acc.length + k > 65537 →
      listIpsRange p plen s e acc = .error (.tooManyIPsToExtend p) := by
  intro k
  induction k with
  | zero =>
    intro s e acc hk hne _ hlen
    exact absurd rfl hne
  | succ k2 ih =>
    intro s e acc hk hne hbound hlen
    unfold listIpsRange
    rw [dif_pos (by omega)]
    by_cases hacc : acc.length > 65536
    · rw [if_pos hacc]
    · rw [if_neg hacc]
      rw [if_neg (by omega)]
      refine ih (s + 1) e (acc ++ [Iface.mk s plen]) (by omega) (by omega)
        hbound ?_
      simp only [List.length_append, List.length_cons, List.length_nil]
      omega

theorem listIpsRange_addr_err (p : IPPool) (plen : Nat) :
    ∀ (k s : Nat) (acc : List Iface), 4294967295 + 1 - s = k → k ≠ 0 →
      acc.length + k ≤ 65537 →
      listIpsRange p plen s 4294967295 acc =
        .error (.addressValueError
          "4294967296 (>= 2**32) is not permitted as an IPv4 address".data)
    := by
  intro k
  induction k with
  | zero =>
    intro s acc hk hne _
    exact absurd rfl hne
  | succ k2 ih =>
    intro s acc hk hne hlen
    unfold listIpsRange
    rw [dif_pos (by omega)]
    rw [if_neg (by omega)]
    by_cases hlast : s = 4294967295
    · rw [if_pos (by omega)]
    · rw [if_neg (by omega)]
      refine ih (s + 1) (acc ++ [Iface.mk s plen]) (by omega) (by omega) ?_
      simp only [List.length_append, List.length_cons, List.length_nil]
      omega

theorem listIpsRange_ok_inv (p : IPPool) (plen : Nat) :
    ∀ (k s e : Nat) (acc r : List Iface), e + 1 - s = k →
      listIpsRange p plen s e acc = .ok r →
      r = acc ++ expandRange plen s e := by
  intro k
  induction k with
  | zero =>
    intro s e acc r hk h
    unfold listIpsRange at h
    rw [dif_neg (by omega)] at h
    injection h with h
    unfold expandRange
    rw [hk]
    simp only [expandFrom, List.append_nil]
    exact h.symm
  | succ k2 ih =>
    intro s e acc r hk h
    unfold listIpsRange at h
    rw [dif_pos (by omega)] at h
    by_cases hacc : acc.length > 65536
    · rw [if_pos hacc] at h
      exact absurd h (by simp)
    · rw [if_neg hacc] at h
      by_cases haddr : s + 1 ≥ 4294967296
      · rw [if_pos haddr] at h
        exact absurd h (by simp)
      · rw [if_neg haddr] at h
        have h2 := ih (s + 1) e (acc ++ [Iface.mk s plen]) r (by omega) h
        rw [h2]
        unfold expandRange
        rw [hk, show e + 1 - (s + 1) = k2 by omega]
        simp [expandFrom, List.append_assoc]

theorem listIps_ok (p : IPPool) :
    ∀ (l : List IPRangePair) (acc : List Iface),
      acc.length + ipCount l ≤ 65537 → noMaxEndB l = true →
      listIps p acc l = .ok (acc ++ expandAll l)
  | [], acc, _, _ => by simp [listIps, expandAll]
  | (s, e) :: t, acc, hlen, hmax => by
    simp only [noMaxEndB, List.all_cons, Bool.or_eq_true, Bool.and_eq_true,
      decide_eq_true_eq] at hmax
    simp only [listIps]
    rw [listIpsRange_ok p s.plen (e.ip + 1 - s.ip) s.ip e.ip acc rfl
      (by simp only [ipCount] at hlen; omega)
      (by rcases hmax.1 with h0 | h0
          · exact Or.inr h0
          · exact Or.inl (by omega))]
    show listIps p (acc ++ expandRange s.plen s.ip e.ip) t =
      Except.ok (acc ++ expandAll ((s, e) :: t))
    rw [listIps_ok p t (acc ++ expandRange s.plen s.ip e.ip)
      (by simp only [List.length_append, expandRange_len]
          simp only [ipCount] at hlen
          omega)
      (by simp only [noMaxEndB]; exact hmax.2)]
    simp [expandAll, List.append_assoc]

theorem listIps_err (p : IPPool) :
    ∀ (l : List IPRangePair) (acc : List Iface), acc.length ≤ 65537 →
      acc.length + ipCount l > 65537 → noMaxEndB l = true →
      listIps p acc l = .error (.tooManyIPsToExtend p)
  | [], acc, hacc, hlen, _ => by
    simp only [ipCount] at hlen
    omega
  | (s, e) :: t, acc, hacc, hlen, hmax => by
    simp only [noMaxEndB, List.all_cons, Bool.or_eq_true, Bool.and_eq_true,
      decide_eq_true_eq] at hmax
    simp only [listIps]
    simp only [ipCount] at hlen
    by_cases hcross : acc.length + (e.ip + 1 - s.ip) > 65537
    · rw [listIpsRange_err p s.plen (e.ip + 1 - s.ip) s.ip e.ip acc rfl
        (by omega)
        (by rcases hmax.1 with h0 | h0 <;> omega)
        hcross]
    · rw [listIpsRange_ok p s.plen (e.ip + 1 - s.ip) s.ip e.ip acc rfl
        (by omega)
        (by rcases hmax.1 with h0 | h0
            · exact Or.inr h0
            · exact Or.inl (by omega))]
      show listIps p (acc ++ expandRange s.plen s.ip e.ip) t =
        Except.error (Err.tooManyIPsToExtend p)
      exact listIps_err p t _
        (by simp only [List.length_append, expandRange_len]
            omega)
        (by simp only [List.length_append, expandRange_len]
            omega)
        (by simp only [noMaxEndB]; exact hmax.2)

theorem listIps_ok_inv (p : IPPool) :
    ∀ (l : List IPRangePair) (acc r : List Iface),
      listIps p acc l = .ok r → r = acc ++ expandAll l
  | [], acc, r, h => by
    simp only [listIps] at h
    injection h with h
    simp only [expandAll, List.append_nil]
    exact h.symm
  | (s, e) :: t, acc, r, h => by
    simp only [listIps] at h
    cases hr : listIpsRange p s.plen s.ip e.ip acc with
    | error er =>
      simp only [hr] at h
      exact absurd h (by simp)
    | ok acc2 =>
      simp only [hr] at h
      have h2 := listIpsRange_ok_inv p s.plen (e.ip + 1 - s.ip) s.ip e.ip
        acc acc2 rfl hr
      have h3 := listIps_ok_inv p t acc2 r h
      rw [h3, h2]
      simp [expandAll, List.append_assoc]
/-! ### Operation preservation lemmas -/

theorem allocate_empty {p : IPPool} (h : p.available_ip_pool = []) :
    allocate_ip p =
      (.error (.valueError "No available IP addresses in the pool.".data), p)
    := by
  unfold allocate_ip
  rw [h]

theorem allocate_cons (p : IPPool) (s e : Iface) (rest : List IPRangePair)
    (hav : p.available_ip_pool = (s, e) :: rest) :
    allocate_ip p = (.ok s,
      { p with
        available_ip_pool :=
          if s ≠ e then (Iface.mk (s.ip + 1) s.plen, e) :: rest else rest,
        used_ips := sort_and_merge_ip_ranges (p.used_ips ++ [(s, s)]) }) := by
  unfold allocate_ip
  rw [hav]

theorem iface_eq_of_ip_eq {s e : Iface} (hp : s.plen = e.plen)
    (hip : s.ip = e.ip) : s = e := by
  cases s
  cases e
  simp only [] at hp hip
  rw [hp, hip]

theorem cover_alloc_arith {n sip : Nat} (A U : Prop) (hA : n = sip → A) :
    ((A ∧ ¬ n = sip) ∨ (U ∨ n = sip)) ↔ (A ∨ U) := by
  by_cases hna : n = sip
  · simp [hna, hA hna]
  · simp [hna]

/-- Everything C1 and C2 need about a successful allocation from a
well-formed pool. -/
theorem allocate_ok_spec {P : Nat} {p p2 : IPPool} {a : Iface}
    (hwf : PoolWF P p) (h : allocate_ip p = (.ok a, p2)) :
    (∀ n, coversB p.available_ip_pool n = true → a.ip ≤ n) ∧
      coversB p.available_ip_pool a.ip = true ∧
      PoolWF P p2 ∧
      (∀ n, coversB p2.available_ip_pool n =
        (coversB p.available_ip_pool n && decide (n ≠ a.ip))) ∧
      (∀ n, coversB p2.used_ips n =
        (coversB p.used_ips n || decide (n = a.ip))) ∧
      (∀ n, poolCoverB p2 n = poolCoverB p n) := by
  obtain ⟨hv1, hg1, hu1, hv2, hg2, hu2, hdisj⟩ := hwf
  cases hav : p.available_ip_pool with
  | nil =>
    rw [allocate_empty hav] at h
    exact absurd h (by simp)
  | cons hd rest =>
    obtain ⟨s, e⟩ := hd
    rw [allocate_cons p s e rest hav] at h
    injection h with h1 h2
    injection h1 with h1
    subst h1
    have hA : p2.available_ip_pool =
        (if s ≠ e then (Iface.mk (s.ip + 1) s.plen, e) :: rest else rest) := by
      rw [← h2]
    have hU : p2.used_ips =
        sort_and_merge_ip_ranges (p.used_ips ++ [(s, s)]) := by
      rw [← h2]
    rw [hav] at hv1 hg1 hu1 hdisj
    simp only [validB, List.all_cons, Bool.and_eq_true, decide_eq_true_eq]
      at hv1
    simp only [uniformB, List.all_cons, Bool.and_eq_true, decide_eq_true_eq]
      at hu1
    have hgr : gapFrom e.ip rest = true := hg1
    have hvr : validB rest = true := by
      simp only [validB]
      exact hv1.2
    have hur : uniformB P rest = true := by
      simp only [uniformB]
      exact hu1.2
    have hlb : ∀ n, coversB rest n = true → e.ip < n := fun n hn =>
      gapFrom_covers_lb rest e.ip n hvr hgr hn
    have hhead : coversB ((s, e) :: rest) s.ip = true := by
      simp only [coversB, List.any_cons, Bool.or_eq_true, Bool.and_eq_true,
        decide_eq_true_eq]
      exact Or.inl ⟨Nat.le_refl _, hv1.1⟩
    -- the used side
    have hvu : validB (p.used_ips ++ [(s, s)]) = true := by
      simp only [validB, List.all_append, List.all_cons, List.all_nil,
        Bool.and_eq_true, decide_eq_true_eq]
      exact ⟨hv2, by omega, trivial⟩
    have huu : uniformB P (p.used_ips ++ [(s, s)]) = true := by
      simp only [uniformB, List.all_append, List.all_cons, List.all_nil,
        Bool.and_eq_true, decide_eq_true_eq]
      exact ⟨hu2, ⟨hu1.1.1, hu1.1.1⟩, trivial⟩
    have hucov : ∀ n, coversB p2.used_ips n =
        (coversB p.used_ips n || decide (n = s.ip)) := by
      intro n
      rw [hU, sort_and_merge_covers hvu huu n]
      apply bool_eq_of_iff
      simp only [coversB, List.any_append, List.any_cons, List.any_nil,
        Bool.or_eq_true, Bool.and_eq_true, decide_eq_true_eq, Bool.or_false]
      constructor
      · rintro (hx | hx)
        · exact Or.inl hx
        · exact Or.inr (by omega)
      · rintro (hx | hx)
        · exact Or.inl hx
        · exact Or.inr (by omega)
    have huv2 : validB p2.used_ips = true := by
      rw [hU]
      exact (sort_and_merge_canonical hvu).1
    have hug2 : gappedB p2.used_ips = true := by
      rw [hU]
      exact (sort_and_merge_canonical hvu).2
    have huu2 : uniformB P p2.used_ips = true := by
      rw [hU]
      exact uniformB_sort_and_merge huu
    -- the available side, uniformly over the two shapes
    have key : (∀ n, coversB p2.available_ip_pool n =
        (coversB ((s, e) :: rest) n && decide (n ≠ s.ip))) ∧
        validB p2.available_ip_pool = true ∧
        gappedB p2.available_ip_pool = true ∧
        uniformB P p2.available_ip_pool = true := by
      by_cases hse : s = e
      · rw [hA, if_neg (by simp [hse])]
        subst hse
        refine ⟨?_, hvr, gappedB_of_gapFrom hgr, hur⟩
        intro n
        apply bool_eq_of_iff
        simp only [coversB, List.any_cons, Bool.or_eq_true, Bool.and_eq_true,
          decide_eq_true_eq, ne_eq]
        by_cases hR : rest.any (fun pr => decide (pr.1.ip ≤ n) &&
          decide (n ≤ pr.2.ip)) = true
        · have hlbn := hlb n (by simpa [coversB] using hR)
          simp only [hR, Bool.false_eq_true, or_true, true_or, true_and, and_true,
            false_or, or_false, false_and, and_false, iff_true, true_iff,
            iff_false, false_iff]
          omega
        · simp only [hR, Bool.false_eq_true, or_true, true_or, true_and, and_true,
            false_or, or_false, false_and, and_false, iff_true, true_iff,
            iff_false, false_iff]
          omega
      · rw [hA, if_pos hse]
        have hip : s.ip ≠ e.ip := fun hc =>
          hse (iface_eq_of_ip_eq (by omega) hc)
        refine ⟨?_, ?_, hgr, ?_⟩
        · intro n
          apply bool_eq_of_iff
          simp only [coversB, List.any_cons, Bool.or_eq_true,
            Bool.and_eq_true, decide_eq_true_eq, ne_eq]
          by_cases hR : rest.any (fun pr => decide (pr.1.ip ≤ n) &&
            decide (n ≤ pr.2.ip)) = true
          · have hlbn := hlb n (by simpa [coversB] using hR)
            simp only [hR, Bool.false_eq_true, or_true, true_or, true_and, and_true,
              false_or, or_false, false_and, and_false, iff_true, true_iff,
              iff_false, false_iff]
            omega
          · simp only [hR, Bool.false_eq_true, or_true, true_or, true_and, and_true,
              false_or, or_false, false_and, and_false, iff_true, true_iff,
              iff_false, false_iff]
            omega
        · simp only [validB, List.all_cons, Bool.and_eq_true,
            decide_eq_true_eq]
          refine ⟨?_, hv1.2⟩
          show s.ip + 1 ≤ e.ip
          omega
        · simp only [uniformB, List.all_cons, Bool.and_eq_true,
            decide_eq_true_eq]
          exact ⟨⟨hu1.1.1, hu1.1.2⟩, hu1.2⟩
    obtain ⟨hacov, hva, hga, hua⟩ := key
    have hmin : ∀ n, coversB ((s, e) :: rest) n = true → s.ip ≤ n := by
      intro n hn
      simp only [coversB, List.any_cons, Bool.or_eq_true, Bool.and_eq_true,
        decide_eq_true_eq] at hn
      rcases hn with hx | hx
      · omega
      · have := hlb n (by simpa [coversB] using hx)
        omega
    refine ⟨?_, ?_, ⟨hva, hga, hua, huv2, hug2, huu2, ?_⟩, ?_, ?_, ?_⟩
    · intro n hn
      exact hmin n hn
    · exact hhead
    · apply disjointRangesB_of_covers hva huv2
      intro n hn
      rw [hacov n] at hn
      simp only [Bool.and_eq_true, decide_eq_true_eq] at hn
      rw [hucov n]
      have hused := disjoint_covers hdisj hn.1
      simp only [hused, Bool.false_or, decide_eq_true_eq]
      simp only [ne_eq] at hn
      simp [hn.2]
    · intro n
      exact hacov n
    · intro n
      exact hucov n
    · intro n
      unfold poolCoverB
      rw [hacov n, hucov n, hav]
      apply bool_eq_of_iff
      simp only [Bool.or_eq_true, Bool.and_eq_true, decide_eq_true_eq, ne_eq]
      refine cover_alloc_arith _ _ ?_
      intro hn
      subst hn
      simpa only [coversB, List.any_cons, Bool.or_eq_true, Bool.and_eq_true,
        decide_eq_true_eq] using hhead

theorem update_netmask_fields (p : IPPool) (x y : List IPRangePair)
    (s : List Char) :
    update_netmask { p with available_ip_pool := x, used_ips := y } s =
      update_netmask p s := rfl

theorem set_used_ips_nil (p : IPPool) :
    set_used_ips p [] =
      (none, { p with used_ips := sort_and_merge_ip_ranges p.used_ips }) :=
  rfl

theorem set_used_ips_cons_parse_err {p : IPPool} {s : List Char}
    {e : Err} (rest : List (List Char))
    (hup : update_netmask p s = .error e) :
    set_used_ips p (s :: rest) = (some e, p) := by
  simp only [set_used_ips, hup]

theorem set_used_ips_cons_notavail {p : IPPool} {s : List Char} {i i2 : Iface}
    {l2 : List IPRangePair} (rest : List (List Char))
    (hup : update_netmask p s = .ok i)
    (hrem : remove_ip_from_ranges p.available_ip_pool i =
      .error (.ipNotInList i2 l2)) :
    set_used_ips p (s :: rest) =
      (some (.notInAvailableIPPool i2 l2), p) := by
  simp only [set_used_ips, hup, hrem]

theorem set_used_ips_cons_ok {p : IPPool} {s : List Char} {i : Iface}
    {avail2 : List IPRangePair} (rest : List (List Char))
    (hup : update_netmask p s = .ok i)
    (hrem : remove_ip_from_ranges p.available_ip_pool i = .ok avail2) :
    set_used_ips p (s :: rest) =
      set_used_ips { p with available_ip_pool := avail2,
                            used_ips := p.used_ips ++ [(i, i)] } rest := by
  simp only [set_used_ips, hup, hrem]

/-- Loop invariant preservation for a successful `set_used_ips` batch. -/
theorem set_used_ips_ok_spec :
    ∀ (ips : List (List Char)) (p p2 : IPPool) (P : Nat),
      validB p.available_ip_pool = true →
      gappedB p.available_ip_pool = true →
      uniformB P p.available_ip_pool = true →
      validB p.used_ips = true → uniformB P p.used_ips = true →
      disjointRangesB p.available_ip_pool p.used_ips = true →
      (∀ s ∈ ips, ∀ i, update_netmask p s = .ok i → i.plen = P) →
      set_used_ips p ips = (none, p2) →
      PoolWF P p2 ∧ (∀ n, poolCoverB p2 n = poolCoverB p n) ∧
        p2.ipv4_mask = p.ipv4_mask ∧ p2.ipv6_mask = p.ipv6_mask
  | [], p, p2, P, hva, hga, hua, hvu, huu, hdisj, _, h => by
    rw [set_used_ips_nil] at h
    injection h with _ h2
    have hA : p2.available_ip_pool = p.available_ip_pool := by rw [← h2]
    have hU : p2.used_ips = sort_and_merge_ip_ranges p.used_ips := by
      rw [← h2]
    have hm4 : p2.ipv4_mask = p.ipv4_mask := by rw [← h2]
    have hm6 : p2.ipv6_mask = p.ipv6_mask := by rw [← h2]
    have hucov : ∀ n, coversB p2.used_ips n = coversB p.used_ips n := by
      intro n
      rw [hU]
      exact sort_and_merge_covers hvu huu n
    refine ⟨⟨?_, ?_, ?_, ?_, ?_, ?_, ?_⟩, ?_, hm4, hm6⟩
    · rw [hA]; exact hva
    · rw [hA]; exact hga
    · rw [hA]; exact hua
    · rw [hU]; exact (sort_and_merge_canonical hvu).1
    · rw [hU]; exact (sort_and_merge_canonical hvu).2
    · rw [hU]; exact uniformB_sort_and_merge huu
    · apply disjointRangesB_of_covers (by rw [hA]; exact hva)
        (by rw [hU]; exact (sort_and_merge_canonical hvu).1)
      intro n hn
      rw [hA] at hn
      rw [hucov n]
      exact disjoint_covers hdisj hn
    · intro n
      unfold poolCoverB
      rw [hA, hucov n]
  | s :: rest, p, p2, P, hva, hga, hua, hvu, huu, hdisj, hargs, h => by
    cases hup : update_netmask p s with
    | error e =>
      rw [set_used_ips_cons_parse_err rest hup] at h
      exact absurd h (by simp)
    | ok i =>
      have hiplen : i.plen = P :=
        hargs s (List.mem_cons_self _ _) i hup
      cases hrem : remove_ip_from_ranges p.available_ip_pool i with
      | error e2 =>
        cases e2 with
        | ipNotInList i2 l2 =>
          rw [set_used_ips_cons_notavail rest hup hrem] at h
          exact absurd h (by simp)
        | _ =>
          exact absurd hrem (by
            unfold remove_ip_from_ranges
            split <;> simp)
      | ok avail2 =>
        obtain ⟨hva2, hga2, hua2, hcov2, hincov⟩ :=
          remove_preserves hva hga hua hrem
        rw [set_used_ips_cons_ok rest hup hrem] at h
        have hused := disjoint_covers hdisj hincov
        have hvu2 : validB (p.used_ips ++ [(i, i)]) = true := by
          simp only [validB, List.all_append, List.all_cons, List.all_nil,
            Bool.and_eq_true, decide_eq_true_eq]
          exact ⟨hvu, by omega, trivial⟩
        have huu2 : uniformB P (p.used_ips ++ [(i, i)]) = true := by
          simp only [uniformB, List.all_append, List.all_cons, List.all_nil,
            Bool.and_eq_true, decide_eq_true_eq]
          exact ⟨huu, ⟨hiplen, hiplen⟩, trivial⟩
        have hucov2 : ∀ n, coversB (p.used_ips ++ [(i, i)]) n =
            (coversB p.used_ips n || decide (n = i.ip)) := by
          intro n
          apply bool_eq_of_iff
          simp only [coversB, List.any_append, List.any_cons, List.any_nil,
            Bool.or_eq_true, Bool.and_eq_true, decide_eq_true_eq,
            Bool.or_false]
          constructor
          · rintro (hx | hx)
            · exact Or.inl hx
            · exact Or.inr (by omega)
          · rintro (hx | hx)
            · exact Or.inl hx
            · exact Or.inr (by omega)
        have hdisj2 : disjointRangesB avail2 (p.used_ips ++ [(i, i)]) =
            true := by
          apply disjointRangesB_of_covers hva2 hvu2
          intro n hn
          rw [hcov2 n] at hn
          simp only [Bool.and_eq_true, decide_eq_true_eq] at hn
          rw [hucov2 n]
          simp only [disjoint_covers hdisj hn.1, Bool.false_or,
            decide_eq_true_eq]
          simp only [ne_eq] at hn
          simp [hn.2]
        have hargs2 : ∀ s2 ∈ rest, ∀ i2,
            update_netmask { p with available_ip_pool := avail2,
                                    used_ips := p.used_ips ++ [(i, i)] } s2 =
              .ok i2 →
            i2.plen = P := by
          intro s2 hs2 i2 hup2
          rw [update_netmask_fields] at hup2
          exact hargs s2 (List.mem_cons_of_mem _ hs2) i2 hup2
        obtain ⟨hwf2, hcov3, hm4, hm6⟩ :=
          set_used_ips_ok_spec rest _ p2 P hva2 hga2 hua2 hvu2 huu2 hdisj2
            hargs2 h
        refine ⟨hwf2, ?_, hm4, hm6⟩
        intro n
        rw [hcov3 n]
        unfold poolCoverB
        simp only []
        rw [hcov2 n, hucov2 n]
        apply bool_eq_of_iff
        simp only [Bool.or_eq_true, Bool.and_eq_true, decide_eq_true_eq,
          ne_eq]
        refine cover_alloc_arith _ _ ?_
        intro hn
        subst hn
        exact hincov

theorem disjoint_covers_right {l1 l2 : List IPRangePair}
    (hd : disjointRangesB l1 l2 = true) {n : Nat}
    (h2 : coversB l2 n = true) : coversB l1 n = false := by
  cases hc : coversB l1 n with
  | false => rfl
  | true =>
    have := disjoint_covers hd hc
    rw [this] at h2
    exact absurd h2 (by simp)

theorem cover_unset_arith {n sip : Nat} (A U : Prop) (hU : n = sip → U) :
    ((A ∨ n = sip) ∨ (U ∧ ¬ n = sip)) ↔ (A ∨ U) := by
  by_cases hna : n = sip
  · simp [hna, hU hna]
  · simp [hna]

theorem normArg_fields (p : IPPool) (x y : List IPRangePair) (a : UnsetArg) :
    normArg { p with available_ip_pool := x, used_ips := y } a =
      normArg p a := by
  cases a <;> rfl

theorem unset_used_ips_nil (p : IPPool) :
    unset_used_ips p [] =
      (none, { p with available_ip_pool :=
                sort_and_merge_ip_ranges p.available_ip_pool }) :=
  rfl

theorem unset_used_ips_cons_parse_err {p : IPPool} {a : UnsetArg}
    {e : Err} (rest : List UnsetArg)
    (hup : normArg p a = .error e) :
    unset_used_ips p (a :: rest) = (some e, p) := by
  simp only [unset_used_ips, hup]

theorem unset_used_ips_cons_notused {p : IPPool} {a : UnsetArg} {i i2 : Iface}
    {l2 : List IPRangePair} (rest : List UnsetArg)
    (hup : normArg p a = .ok i)
    (hrem : remove_ip_from_ranges p.used_ips i =
      .error (.ipNotInList i2 l2)) :
    unset_used_ips p (a :: rest) = (some (.notInUsedIPs i2 l2), p) := by
  simp only [unset_used_ips, hup, hrem]

theorem unset_used_ips_cons_ok {p : IPPool} {a : UnsetArg} {i : Iface}
    {used2 : List IPRangePair} (rest : List UnsetArg)
    (hup : normArg p a = .ok i)
    (hrem : remove_ip_from_ranges p.used_ips i = .ok used2) :
    unset_used_ips p (a :: rest) =
      unset_used_ips { p with used_ips := used2,
                              available_ip_pool :=
                                p.available_ip_pool ++ [(i, i)] } rest := by
  simp only [unset_used_ips, hup, hrem]

/-- Loop invariant preservation for a successful `unset_used_ips` batch. -/
theorem unset_used_ips_ok_spec :
    ∀ (args : List UnsetArg) (p p2 : IPPool) (P : Nat),
      validB p.used_ips = true → gappedB p.used_ips = true →
      uniformB P p.used_ips = true →
      validB p.available_ip_pool = true →
      uniformB P p.available_ip_pool = true →
      disjointRangesB p.available_ip_pool p.used_ips = true →
      (∀ a ∈ args, ∀ i, normArg p a = .ok i → i.plen = P) →
      unset_used_ips p args = (none, p2) →
      PoolWF P p2 ∧ (∀ n, poolCoverB p2 n = poolCoverB p n) ∧
        p2.ipv4_mask = p.ipv4_mask ∧ p2.ipv6_mask = p.ipv6_mask
  | [], p, p2, P, hvu, hgu, huu, hva, hua, hdisj, _, h => by
    rw [unset_used_ips_nil] at h
    injection h with _ h2
    have hA : p2.available_ip_pool =
        sort_and_merge_ip_ranges p.available_ip_pool := by rw [← h2]
    have hU : p2.used_ips = p.used_ips := by rw [← h2]
    have hm4 : p2.ipv4_mask = p.ipv4_mask := by rw [← h2]
    have hm6 : p2.ipv6_mask = p.ipv6_mask := by rw [← h2]
    have hacov : ∀ n, coversB p2.available_ip_pool n =
        coversB p.available_ip_pool n := by
      intro n
      rw [hA]
      exact sort_and_merge_covers hva hua n
    refine ⟨⟨?_, ?_, ?_, ?_, ?_, ?_, ?_⟩, ?_, hm4, hm6⟩
    · rw [hA]; exact (sort_and_merge_canonical hva).1
    · rw [hA]; exact (sort_and_merge_canonical hva).2
    · rw [hA]; exact uniformB_sort_and_merge hua
    · rw [hU]; exact hvu
    · rw [hU]; exact hgu
    · rw [hU]; exact huu
    · apply disjointRangesB_of_covers
        (by rw [hA]; exact (sort_and_merge_canonical hva).1)
        (by rw [hU]; exact hvu)
      intro n hn
      rw [hacov n] at hn
      rw [hU]
      exact disjoint_covers hdisj hn
    · intro n
      unfold poolCoverB
      rw [hU, hacov n]
  | a :: rest, p, p2, P, hvu, hgu, huu, hva, hua, hdisj, hargs, h => by
    cases hup : normArg p a with
    | error e =>
      rw [unset_used_ips_cons_parse_err rest hup] at h
      exact absurd h (by simp)
    | ok i =>
      have hiplen : i.plen = P :=
        hargs a (List.mem_cons_self _ _) i hup
      cases hrem : remove_ip_from_ranges p.used_ips i with
      | error e2 =>
        cases e2 with
        | ipNotInList i2 l2 =>
          rw [unset_used_ips_cons_notused rest hup hrem] at h
          exact absurd h (by simp)
        | _ =>
          exact absurd hrem (by
            unfold remove_ip_from_ranges
            split <;> simp)
      | ok used2 =>
        obtain ⟨hvu2, hgu2, huu2, hcov2, hincov⟩ :=
          remove_preserves hvu hgu huu hrem
        rw [unset_used_ips_cons_ok rest hup hrem] at h
        have hva2 : validB (p.available_ip_pool ++ [(i, i)]) = true := by
          simp only [validB, List.all_append, List.all_cons, List.all_nil,
            Bool.and_eq_true, decide_eq_true_eq]
          exact ⟨hva, by omega, trivial⟩
        have hua2 : uniformB P (p.available_ip_pool ++ [(i, i)]) = true := by
          simp only [uniformB, List.all_append, List.all_cons, List.all_nil,
            Bool.and_eq_true, decide_eq_true_eq]
          exact ⟨hua, ⟨hiplen, hiplen⟩, trivial⟩
        have hacov2 : ∀ n, coversB (p.available_ip_pool ++ [(i, i)]) n =
            (coversB p.available_ip_pool n || decide (n = i.ip)) := by
          intro n
          apply bool_eq_of_iff
          simp only [coversB, List.any_append, List.any_cons, List.any_nil,
            Bool.or_eq_true, Bool.and_eq_true, decide_eq_true_eq,
            Bool.or_false]
          constructor
          · rintro (hx | hx)
            · exact Or.inl hx
            · exact Or.inr (by omega)
          · rintro (hx | hx)
            · exact Or.inl hx
            · exact Or.inr (by omega)
        have hdisj2 : disjointRangesB (p.available_ip_pool ++ [(i, i)])
            used2 = true := by
          apply disjointRangesB_of_covers hva2 hvu2
          intro n hn
          rw [hacov2 n] at hn
          rw [hcov2 n]
          simp only [Bool.or_eq_true, decide_eq_true_eq] at hn
          rcases hn with hn | hn
          · simp [disjoint_covers hdisj hn]
          · simp [hn]
        have hargs2 : ∀ a2 ∈ rest, ∀ i2,
            normArg { p with used_ips := used2,
                             available_ip_pool :=
                               p.available_ip_pool ++ [(i, i)] } a2 =
              .ok i2 →
            i2.plen = P := by
          intro a2 ha2 i2 hup2
          rw [normArg_fields] at hup2
          exact hargs a2 (List.mem_cons_of_mem _ ha2) i2 hup2
        obtain ⟨hwf2, hcov3, hm4, hm6⟩ :=
          unset_used_ips_ok_spec rest _ p2 P hvu2 hgu2 huu2 hva2 hua2 hdisj2
            hargs2 h
        refine ⟨hwf2, ?_, hm4, hm6⟩
        intro n
        rw [hcov3 n]
        unfold poolCoverB
        simp only []
        rw [hcov2 n, hacov2 n]
        apply bool_eq_of_iff
        simp only [Bool.or_eq_true, Bool.and_eq_true, decide_eq_true_eq,
          ne_eq]
        refine cover_unset_arith _ _ ?_
        intro hn
        subst hn
        exact hincov

theorem expandAll_plen {P : Nat} :
    ∀ l : List IPRangePair, uniformB P l = true →
      ∀ i ∈ expandAll l, i.plen = P
  | [], _, i, hi => by simp [expandAll] at hi
  | (s, e) :: t, hu, i, hi => by
    simp only [uniformB, List.all_cons, Bool.and_eq_true, decide_eq_true_eq]
      at hu
    simp only [expandAll, List.mem_append] at hi
    rcases hi with hi | hi
    · have := expandFrom_mem s.plen (e.ip + 1 - s.ip) s.ip i hi
      rw [this.1]
      exact hu.1.1
    · exact expandAll_plen t (by simp only [uniformB]; exact hu.2) i hi

/-- `cleanup_used_ips` preserves the invariant whenever it returns
normally. -/
theorem cleanup_ok_spec {P : Nat} {p p2 : IPPool} (hwf : PoolWF P p)
    (h : cleanup_used_ips p = (none, p2)) :
    PoolWF P p2 ∧ (∀ n, poolCoverB p2 n = poolCoverB p n) ∧
      p2.ipv4_mask = p.ipv4_mask ∧ p2.ipv6_mask = p.ipv6_mask := by
  obtain ⟨hva, hga, hua, hvu, hgu, huu, hdisj⟩ := hwf
  unfold cleanup_used_ips at h
  cases hlist : list_used_ips p with
  | error e =>
    rw [hlist] at h
    exact absurd h (by simp)
  | ok l =>
    rw [hlist] at h
    have hl : l = [] ++ expandAll p.used_ips :=
      listIps_ok_inv p p.used_ips [] l hlist
    rw [List.nil_append] at hl
    subst hl
    refine unset_used_ips_ok_spec _ p p2 P hvu hgu huu hva hua hdisj ?_ h
    intro a ha i hup
    simp only [List.mem_map] at ha
    obtain ⟨i0, hi0, ha0⟩ := ha
    subst ha0
    simp only [normArg] at hup
    injection hup with hup
    subst hup
    exact expandAll_plen p.used_ips huu _ hi0

/-! ### Construction lemmas -/

theorem parse_ip_range_ok {p : IPPool} {tok : List Char} {s e : Iface}
    (h : parse_ip_range p tok = .ok (s, e)) :
    s.plen = e.plen ∧ s.ip ≤ e.ip := by
  unfold parse_ip_range at h
  by_cases hc : tok.contains '-' = true
  · rw [if_pos hc] at h
    cases hsp : splitOnChar '-' tok with
    | nil =>
      simp only [hsp] at h
      exact absurd h (by simp)
    | cons a tl =>
      cases tl with
      | nil =>
        simp only [hsp] at h
        exact absurd h (by simp)
      | cons b tl2 =>
        cases tl2 with
        | cons c tl3 =>
          simp only [hsp] at h
          exact absurd h (by simp)
        | nil =>
          simp only [hsp] at h
          cases hs1 : update_netmask p (stripChars a) with
          | error e1 =>
            simp only [hs1] at h
            exact absurd h (by simp)
          | ok i1 =>
            simp only [hs1] at h
            cases hs2 : update_netmask p (stripChars b) with
            | error e2 =>
              simp only [hs2] at h
              exact absurd h (by simp)
            | ok i2 =>
              simp only [hs2] at h
              by_cases hnet : netAddr i1 ≠ netAddr i2 ∨ i1.plen ≠ i2.plen
              · rw [if_pos hnet] at h
                exact absurd h (by simp)
              · rw [if_neg hnet] at h
                push_neg at hnet
                by_cases hlt : ifaceLt i2 i1 = true
                · rw [if_pos hlt] at h
                  exact absurd h (by simp)
                · rw [if_neg hlt] at h
                  injection h with h
                  injection h with h1 h2
                  subst h1
                  subst h2
                  refine ⟨hnet.2, ?_⟩
                  rw [ifaceLt_iff_of_eq_plen hnet.2.symm] at hlt
                  omega
  · rw [if_neg hc] at h
    cases hs1 : update_netmask p (stripChars tok) with
    | error e1 =>
      simp only [hs1] at h
      exact absurd h (by simp)
    | ok i1 =>
      simp only [hs1] at h
      injection h with h
      injection h with h1 h2
      subst h1
      subst h2
      exact ⟨rfl, Nat.le_refl _⟩

theorem collectRanges_some_spec :
    ∀ (toks : List (List Char)) (p : IPPool) (input : List Char)
      (l : List IPRangePair) (p1 : IPPool) (na P : Nat),
      p.version = some 4 → p.network = some (na, P) →
      collectRanges p input toks = .ok (l, p1) →
      validB l = true ∧ uniformB P l = true
  | [], p, input, l, p1, na, P, _, _, h => by
    simp only [collectRanges] at h
    injection h with h
    injection h with h1 h2
    subst h1
    exact ⟨rfl, rfl⟩
  | tok :: rest, p, input, l, p1, na, P, hver, hnet, h => by
    simp only [collectRanges] at h
    cases hp : parse_ip_range p tok with
    | error e1 =>
      simp only [hp] at h
      exact absurd h (by simp)
    | ok pr =>
      obtain ⟨s, e⟩ := pr
      simp only [hp] at h
      have hcond : ¬ (p.version = none ∨ p.network = none) := by
        simp [hver, hnet]
      simp only [if_neg hcond] at h
      rw [if_neg (by simp [hver])] at h
      by_cases hne : p.network ≠ some (netAddr s, s.plen)
      · rw [if_pos hne] at h
        exact absurd h (by simp)
      · rw [if_neg hne] at h
        push_neg at hne
        have hna : na = netAddr s ∧ P = s.plen := by
          rw [hnet] at hne
          injection hne with hne
          exact ⟨congrArg Prod.fst hne, congrArg Prod.snd hne⟩
        cases hcol : collectRanges p input rest with
        | error e2 =>
          simp only [hcol] at h
          exact absurd h (by simp)
        | ok pr2 =>
          obtain ⟨l2, p2⟩ := pr2
          simp only [hcol] at h
          injection h with h
          injection h with h1 h2
          subst h1
          obtain ⟨hvt, hut⟩ := collectRanges_some_spec rest p input l2 p2
            na P hver hnet hcol
          obtain ⟨hpl, hle⟩ := parse_ip_range_ok hp
          refine ⟨?_, ?_⟩
          · simp only [validB, List.all_cons, Bool.and_eq_true,
              decide_eq_true_eq]
            exact ⟨hle, hvt⟩
          · simp only [uniformB, List.all_cons, Bool.and_eq_true,
              decide_eq_true_eq]
            exact ⟨⟨by omega, by omega⟩, hut⟩

theorem collectRanges_start_spec :
    ∀ (toks : List (List Char)) (p : IPPool) (input : List Char)
      (l : List IPRangePair) (p1 : IPPool),
      p.version = none →
      collectRanges p input toks = .ok (l, p1) →
      ∃ P, validB l = true ∧ uniformB P l = true
  | [], p, input, l, p1, _, h => by
    simp only [collectRanges] at h
    injection h with h
    injection h with h1 h2
    subst h1
    refine ⟨0, ?_, ?_⟩ <;> rfl
  | tok :: rest, p, input, l, p1, hver, h => by
    simp only [collectRanges] at h
    cases hp : parse_ip_range p tok with
    | error e1 =>
      simp only [hp] at h
      exact absurd h (by simp)
    | ok pr =>
      obtain ⟨s, e⟩ := pr
      simp only [hp] at h
      rw [if_pos (Or.inl hver)] at h
      rw [if_neg (by simp)] at h
      rw [if_neg (by simp)] at h
      cases hcol : collectRanges
          { p with version := some 4, network := some (netAddr s, s.plen) }
          input rest with
      | error e2 =>
        rw [hcol] at h
        exact absurd h (by simp)
      | ok pr2 =>
        obtain ⟨l2, p2⟩ := pr2
        rw [hcol] at h
        simp only [] at h
        injection h with h
        injection h with h1 h2
        subst h1
        obtain ⟨hvt, hut⟩ := collectRanges_some_spec rest _ input l2 p2
          (netAddr s) s.plen rfl rfl hcol
        obtain ⟨hpl, hle⟩ := parse_ip_range_ok hp
        refine ⟨s.plen, ?_, ?_⟩
        · simp only [validB, List.all_cons, Bool.and_eq_true,
            decide_eq_true_eq]
          exact ⟨hle, hvt⟩
        · simp only [uniformB, List.all_cons, Bool.and_eq_true,
            decide_eq_true_eq]
          exact ⟨⟨by trivial, hpl.symm⟩, hut⟩

theorem new_ok_spec {input : List Char} {m4 m6 : Nat} {p : IPPool}
    (h : IPPool.new input m4 m6 = .ok p) :
    ∃ P l, validB l = true ∧ uniformB P l = true ∧
      p.available_ip_pool = sort_and_merge_ip_ranges l ∧ p.used_ips = [] := by
  unfold IPPool.new at h
  cases hcol : collectRanges
      { ipv4_mask := m4, ipv6_mask := m6, version := none, network := none,
        available_ip_pool := [], used_ips := [] }
      input (splitOnChar ',' input) with
  | error e =>
    rw [hcol] at h
    exact absurd h (by simp)
  | ok pr =>
    obtain ⟨l, p1⟩ := pr
    rw [hcol] at h
    simp only [] at h
    injection h with h
    obtain ⟨P, hv, hu⟩ := collectRanges_start_spec _ _ input l p1 rfl hcol
    refine ⟨P, l, hv, hu, ?_, ?_⟩
    · rw [← h]
    · rw [← h]

/-- Construction establishes the invariant: the available pool is the
coalesced parsed ranges, used is empty. -/
theorem new_establishes_WF {input : List Char} {m4 m6 : Nat} {p : IPPool}
    (h : IPPool.new input m4 m6 = .ok p) :
    ∃ P l, PoolWF P p ∧ p.used_ips = [] ∧ validB l = true ∧
      uniformB P l = true ∧
      p.available_ip_pool = sort_and_merge_ip_ranges l ∧
      (∀ n, coversB p.available_ip_pool n = coversB l n) := by
  obtain ⟨P, l, hv, hu, hA, hU⟩ := new_ok_spec h
  obtain ⟨hv2, hg2⟩ := sort_and_merge_canonical hv
  refine ⟨P, l, ⟨?_, ?_, ?_, ?_, ?_, ?_, ?_⟩, hU, hv, hu, hA, ?_⟩
  · rw [hA]; exact hv2
  · rw [hA]; exact hg2
  · rw [hA]; exact uniformB_sort_and_merge hu
  · rw [hU]; rfl
  · rw [hU]; rfl
  · rw [hU]; rfl
  · rw [hU]
    simp [disjointRangesB]
  · intro n
    rw [hA]
    exact sort_and_merge_covers hv hu n

/-! ### Rendering and re-parsing lemmas -/

theorem digitChar_toNat {d : Nat} (h : d ≤ 9) :
    (digitChar d).toNat = 48 + d := by
  interval_cases d <;> rfl

theorem natChars_digits :
    ∀ n : Nat, ∀ c ∈ natChars n, isDigitChar c = true := by
  intro n
  induction n using Nat.strong_induction_on with
  | _ n ih =>
    intro c hc
    unfold natChars at hc
    by_cases h : n < 10
    · rw [dif_pos h] at hc
      simp only [List.mem_singleton] at hc
      subst hc
      simp only [isDigitChar, Bool.and_eq_true, decide_eq_true_eq]
      rw [digitChar_toNat (by omega)]
      omega
    · rw [dif_neg h] at hc
      simp only [List.mem_append, List.mem_singleton] at hc
      rcases hc with hc | hc
      · exact ih (n / 10) (Nat.div_lt_self (by omega) (by omega)) c hc
      · subst hc
        simp only [isDigitChar, Bool.and_eq_true, decide_eq_true_eq]
        rw [digitChar_toNat (by omega)]
        omega

theorem natChars_ne_nil (n : Nat) : natChars n ≠ [] := by
  unfold natChars
  by_cases h : n < 10
  · rw [dif_pos h]
    simp
  · rw [dif_neg h]
    simp

theorem natChars_foldl :
    ∀ n : Nat, (natChars n).foldl (fun a c => a * 10 + (c.toNat - 48)) 0 = n
    := by
  intro n
  induction n using Nat.strong_induction_on with
  | _ n ih =>
    unfold natChars
    by_cases h : n < 10
    · rw [dif_pos h]
      simp only [List.foldl_cons, List.foldl_nil]
      rw [digitChar_toNat (by omega)]
      omega
    · rw [dif_neg h]
      rw [List.foldl_append]
      rw [ih (n / 10) (Nat.div_lt_self (by omega) (by omega))]
      simp only [List.foldl_cons, List.foldl_nil]
      rw [digitChar_toNat (by omega)]
      omega

theorem digitsVal_natChars (n : Nat) : digitsVal (natChars n) = some n := by
  unfold digitsVal
  rw [if_pos]
  · rw [natChars_foldl]
  · refine ⟨natChars_ne_nil n, ?_⟩
    simp only [List.all_eq_true]
    exact natChars_digits n

theorem natChars_small {n : Nat} (h : n < 10) :
    natChars n = [digitChar n] := by
  unfold natChars
  rw [dif_pos h]

theorem natChars_head_ne_zero :
    ∀ n : Nat, 1 ≤ n → ∀ c, (natChars n).head? = some c → c ≠ '0' := by
  intro n
  induction n using Nat.strong_induction_on with
  | _ n ih =>
    intro hn c hc
    unfold natChars at hc
    by_cases h : n < 10
    · rw [dif_pos h] at hc
      simp only [List.head?] at hc
      injection hc with hc
      subst hc
      intro hq
      have := congrArg Char.toNat hq
      rw [digitChar_toNat (by omega)] at this
      simp only [show ('0' : Char).toNat = 48 from rfl] at this
      omega
    · rw [dif_neg h] at hc
      have hne := natChars_ne_nil (n / 10)
      cases hh : natChars (n / 10) with
      | nil => exact absurd hh hne
      | cons c0 t0 =>
        rw [hh] at hc
        simp only [List.cons_append, List.head?] at hc
        injection hc with hc
        rw [← hc]
        refine ih (n / 10) (Nat.div_lt_self (by omega) (by omega))
          (by omega) c0 ?_
        rw [hh]
        rfl

theorem isDigitChar_ne (c : Char) (h : isDigitChar c = true) :
    c ≠ '.' ∧ c ≠ '-' ∧ c ≠ '/' ∧ c ≠ ',' ∧ c.isWhitespace = false := by
  simp only [isDigitChar, Bool.and_eq_true, decide_eq_true_eq] at h
  refine ⟨?_, ?_, ?_, ?_, ?_⟩
  · intro hq
    have := congrArg Char.toNat hq
    simp only [show ('.' : Char).toNat = 46 from rfl] at this
    omega
  · intro hq
    have := congrArg Char.toNat hq
    simp only [show ('-' : Char).toNat = 45 from rfl] at this
    omega
  · intro hq
    have := congrArg Char.toNat hq
    simp only [show ('/' : Char).toNat = 47 from rfl] at this
    omega
  · intro hq
    have := congrArg Char.toNat hq
    simp only [show (',' : Char).toNat = 44 from rfl] at this
    omega
  · unfold Char.isWhitespace
    have h32 : c ≠ ' ' := by
      intro hq
      have := congrArg Char.toNat hq
      simp only [show (' ' : Char).toNat = 32 from rfl] at this
      omega
    have h9 : c ≠ '\t' := by
      intro hq
      have := congrArg Char.toNat hq
      simp only [show ('\t' : Char).toNat = 9 from rfl] at this
      omega
    have h13 : c ≠ '\r' := by
      intro hq
      have := congrArg Char.toNat hq
      simp only [show ('\r' : Char).toNat = 13 from rfl] at this
      omega
    have h10 : c ≠ '\n' := by
      intro hq
      have := congrArg Char.toNat hq
      simp only [show ('\n' : Char).toNat = 10 from rfl] at this
      omega
    simp [h32, h9, h13, h10]

theorem splitOnChar_no_sep (c : Char) :
    ∀ s : List Char, (∀ x ∈ s, ¬ x = c) → splitOnChar c s = [s]
  | [], _ => rfl
  | x :: xs, h => by
    have hx : ¬ x = c := h x (List.mem_cons_self _ _)
    have ih := splitOnChar_no_sep c xs
      fun y hy => h y (List.mem_cons_of_mem _ hy)
    simp only [splitOnChar, hx, if_false, ih]

theorem splitOnChar_append (c : Char) :
    ∀ (s1 s2 : List Char), (∀ x ∈ s1, ¬ x = c) →
      splitOnChar c (s1 ++ c :: s2) = s1 :: splitOnChar c s2
  | [], s2, _ => by
    show splitOnChar c (c :: s2) = [] :: splitOnChar c s2
    conv_lhs => rw [splitOnChar]
    rw [if_pos rfl]
  | x :: xs, s2, h => by
    have hx : ¬ x = c := h x (List.mem_cons_self _ _)
    have ih := splitOnChar_append c xs s2
      fun y hy => h y (List.mem_cons_of_mem _ hy)
    show splitOnChar c (x :: (xs ++ c :: s2)) = (x :: xs) :: splitOnChar c s2
    conv_lhs => rw [splitOnChar]
    rw [if_neg hx, ih]

theorem elem_false_of (c : Char) :
    ∀ s : List Char, (∀ x ∈ s, ¬ x = c) → s.elem c = false
  | [], _ => rfl
  | x :: xs, h => by
    have hx : ¬ x = c := h x (List.mem_cons_self _ _)
    have ih := elem_false_of c xs
      fun y hy => h y (List.mem_cons_of_mem _ hy)
    simp only [List.elem]
    have hbeq : (c == x) = false := by
      simp only [beq_eq_false_iff_ne, ne_eq]
      intro hh
      exact hx hh.symm
    rw [hbeq]
    exact ih

theorem contains_false_of (c : Char) (s : List Char)
    (h : ∀ x ∈ s, ¬ x = c) : s.contains c = false :=
  elem_false_of c s h

theorem dropWhile_all_false {p : Char → Bool} :
    ∀ s : List Char, (∀ x ∈ s, p x = false) → s.dropWhile p = s
  | [], _ => rfl
  | x :: xs, h => by
    simp only [List.dropWhile, h x (List.mem_cons_self _ _)]

theorem stripChars_id (s : List Char)
    (h : ∀ x ∈ s, x.isWhitespace = false) : stripChars s = s := by
  unfold stripChars
  rw [dropWhile_all_false s h]
  rw [dropWhile_all_false s.reverse
    (fun x hx => h x (List.mem_reverse.mp hx))]
  exact List.reverse_reverse s

theorem parseOctet_natChars {b : Nat} (hb : b ≤ 255) :
    parseOctet (natChars b) = some b := by
  simp only [parseOctet, digitsVal_natChars]
  by_cases h : b < 10
  · rw [natChars_small h]
    simp only [List.length_cons, List.length_nil, gt_iff_lt]
    rw [if_neg (by simp), if_pos hb]
  · have hhead := natChars_head_ne_zero b (by omega)
    have hcond : decide ((natChars b).head? = some '0') = false := by
      cases hh : (natChars b).head? with
      | none => simp
      | some c0 =>
        simp only [decide_eq_false_iff_not, Option.some.injEq]
        intro hc0
        exact hhead c0 hh hc0
    rw [hcond, Bool.and_false]
    simp only [Bool.false_eq_true, if_false]
    rw [if_pos hb]

theorem ipv4Chars_shape (n : Nat) :
    ∀ x ∈ ipv4Chars n, isDigitChar x = true ∨ x = '.' := by
  intro x hx
  unfold ipv4Chars at hx
  simp only [List.mem_append, List.mem_cons] at hx
  rcases hx with hx | hx | hx
  · exact Or.inl (natChars_digits _ x hx)
  · exact Or.inr hx
  · rcases hx with hx | hx | hx
    · exact Or.inl (natChars_digits _ x hx)
    · exact Or.inr hx
    · rcases hx with hx | hx | hx
      · exact Or.inl (natChars_digits _ x hx)
      · exact Or.inr hx
      · exact Or.inl (natChars_digits _ x hx)

theorem parseIPv4_ipv4Chars {n : Nat} (hn : n < 4294967296) :
    parseIPv4 (ipv4Chars n) = some n := by
  unfold parseIPv4 ipv4Chars
  have hdot : ∀ m : Nat, ∀ x ∈ natChars m, ¬ x = '.' := fun m x hx =>
    (isDigitChar_ne x (natChars_digits m x hx)).1
  rw [splitOnChar_append '.' _ _ (hdot _)]
  rw [splitOnChar_append '.' _ _ (hdot _)]
  rw [splitOnChar_append '.' _ _ (hdot _)]
  rw [splitOnChar_no_sep '.' _ (hdot _)]
  have e1 : parseOctet (natChars (n / 16777216 % 256)) =
      some (n / 16777216 % 256) := parseOctet_natChars (by omega)
  have e2 : parseOctet (natChars (n / 65536 % 256)) =
      some (n / 65536 % 256) := parseOctet_natChars (by omega)
  have e3 : parseOctet (natChars (n / 256 % 256)) =
      some (n / 256 % 256) := parseOctet_natChars (by omega)
  have e4 : parseOctet (natChars (n % 256)) =
      some (n % 256) := parseOctet_natChars (by omega)
  simp only [e1, e2, e3, e4, Option.some.injEq]
  omega

theorem dot_props : ('.' : Char) ≠ '-' ∧ ('.' : Char) ≠ '/' ∧
    ('.' : Char) ≠ ',' ∧ ('.' : Char).isWhitespace = false := by
  refine ⟨by decide, by decide, by decide, by decide⟩

theorem ipv4Chars_no_slash (n : Nat) : ∀ x ∈ ipv4Chars n, ¬ x = '/' := by
  intro x hx
  rcases ipv4Chars_shape n x hx with hd | hd
  · exact (isDigitChar_ne x hd).2.2.1
  · rw [hd]; exact dot_props.2.1

theorem ipv4Chars_no_dash (n : Nat) : ∀ x ∈ ipv4Chars n, ¬ x = '-' := by
  intro x hx
  rcases ipv4Chars_shape n x hx with hd | hd
  · exact (isDigitChar_ne x hd).2.1
  · rw [hd]; exact dot_props.1

theorem ipv4Chars_no_comma (n : Nat) : ∀ x ∈ ipv4Chars n, ¬ x = ',' := by
  intro x hx
  rcases ipv4Chars_shape n x hx with hd | hd
  · exact (isDigitChar_ne x hd).2.2.2.1
  · rw [hd]; exact dot_props.2.2.1

theorem ipv4Chars_no_ws (n : Nat) :
    ∀ x ∈ ipv4Chars n, x.isWhitespace = false := by
  intro x hx
  rcases ipv4Chars_shape n x hx with hd | hd
  · exact (isDigitChar_ne x hd).2.2.2.2
  · rw [hd]; exact dot_props.2.2.2

theorem contains_append_cons (c : Char) :
    ∀ l1 l2 : List Char, (l1 ++ c :: l2).contains c = true
  | [], l2 => by
    show List.elem c (c :: l2) = true
    simp only [List.elem, beq_self_eq_true]
  | x :: xs, l2 => by
    show List.elem c (x :: (xs ++ c :: l2)) = true
    simp only [List.elem]
    cases hbeq : c == x with
    | true => rfl
    | false => exact contains_append_cons c xs l2

theorem update_netmask_render (p : IPPool) {n : Nat}
    (hm : p.ipv4_mask ≤ 32) (hb : n < 4294967296) :
    update_netmask p (ipv4Chars n) = .ok (Iface.mk n p.ipv4_mask) := by
  unfold update_netmask
  have hiface : parseIPIface (ipv4Chars n) = some (Iface.mk n 32) := by
    unfold parseIPIface
    simp only [splitOnChar_no_sep '/' (ipv4Chars n) (ipv4Chars_no_slash n),
      parseIPv4_ipv4Chars hb, Option.map]
  rw [hiface]
  rw [contains_false_of '/' _ (ipv4Chars_no_slash n)]
  simp only [Bool.false_eq_true, if_false]
  rw [if_pos hm]

theorem strip_ipv4Chars (n : Nat) : stripChars (ipv4Chars n) = ipv4Chars n :=
  stripChars_id _ (ipv4Chars_no_ws n)

theorem parse_ip_range_render_single (p : IPPool) {n : Nat}
    (hm : p.ipv4_mask ≤ 32) (hb : n < 4294967296) :
    parse_ip_range p (ipv4Chars n) =
      .ok (Iface.mk n p.ipv4_mask, Iface.mk n p.ipv4_mask) := by
  unfold parse_ip_range
  rw [contains_false_of '-' _ (ipv4Chars_no_dash n)]
  simp only [Bool.false_eq_true, if_false]
  rw [strip_ipv4Chars, update_netmask_render p hm hb]

theorem parse_ip_range_render_pair (p : IPPool) {a b : Nat}
    (hm : p.ipv4_mask ≤ 32) (hba : a < 4294967296) (hbb : b < 4294967296)
    (hab : a ≤ b)
    (hN : netAddr (Iface.mk a p.ipv4_mask) = netAddr (Iface.mk b p.ipv4_mask)) :
    parse_ip_range p (ipv4Chars a ++ '-' :: ipv4Chars b) =
      .ok (Iface.mk a p.ipv4_mask, Iface.mk b p.ipv4_mask) := by
  unfold parse_ip_range
  rw [contains_append_cons '-' _ _]
  simp only [if_true]
  simp only [splitOnChar_append '-' (ipv4Chars a) (ipv4Chars b)
      (ipv4Chars_no_dash a),
    splitOnChar_no_sep '-' (ipv4Chars b) (ipv4Chars_no_dash b),
    strip_ipv4Chars, update_netmask_render p hm hba,
    update_netmask_render p hm hbb]
  rw [if_neg (by
    simp only [ne_eq, not_or, not_not]
    exact ⟨hN, trivial⟩)]
  rw [if_neg (by
    rw [ifaceLt_iff_of_eq_plen
      (show (Iface.mk b p.ipv4_mask).plen = (Iface.mk a p.ipv4_mask).plen
        from rfl)]
    show ¬ b < a
    omega)]

/-- Every endpoint address fits in 32 bits. -/
def boundedB (l : List IPRangePair) : Bool :=
  l.all fun p => decide (p.1.ip < 4294967296) && decide (p.2.ip < 4294967296)

/-- Every endpoint, re-prefixed at `P`, lies in the network with address `N`
(the pool-network uniformity that `_generate_ip_ranges` enforces). -/
def netUniB (N P : Nat) (l : List IPRangePair) : Bool :=
  l.all fun p => decide (netAddr (Iface.mk p.1.ip P) = N) &&
    decide (netAddr (Iface.mk p.2.ip P) = N)

theorem boundedB_sort_and_merge {l : List IPRangePair}
    (h : boundedB l = true) :
    boundedB (sort_and_merge_ip_ranges l) = true := by
  refine sort_and_merge_all _ ?_ l h
  intro x1 x2 y1 y2 hx hy
  simp only [Bool.and_eq_true, decide_eq_true_eq] at hx hy ⊢
  rcases ifaceMax_cases x2 y2 with hm | hm <;> rw [hm]
  · exact ⟨hx.1, hx.2⟩
  · exact ⟨hx.1, hy.2⟩

theorem netUniB_sort_and_merge {N P : Nat} {l : List IPRangePair}
    (h : netUniB N P l = true) :
    netUniB N P (sort_and_merge_ip_ranges l) = true := by
  refine sort_and_merge_all _ ?_ l h
  intro x1 x2 y1 y2 hx hy
  simp only [Bool.and_eq_true, decide_eq_true_eq] at hx hy ⊢
  rcases ifaceMax_cases x2 y2 with hm | hm <;> rw [hm]
  · exact ⟨hx.1, hx.2⟩
  · exact ⟨hx.1, hy.2⟩

theorem rangeChars_no_comma (pr : IPRangePair) :
    ∀ x ∈ rangeChars pr, ¬ x = ',' := by
  intro x hx
  unfold rangeChars at hx
  by_cases h : pr.1 = pr.2
  · rw [if_pos h] at hx
    exact ipv4Chars_no_comma _ x hx
  · rw [if_neg h] at hx
    simp only [List.mem_append, List.mem_cons] at hx
    rcases hx with hx | hx | hx
    · exact ipv4Chars_no_comma _ x hx
    · rw [hx]; decide
    · exact ipv4Chars_no_comma _ x hx

theorem splitOnChar_joinComma :
    ∀ ps : List (List Char), ps ≠ [] →
      (∀ piece ∈ ps, ∀ x ∈ piece, ¬ x = ',') →
      splitOnChar ',' (joinComma ps) = ps
  | [], hne, _ => absurd rfl hne
  | [x], _, h => by
    show splitOnChar ',' x = [x]
    exact splitOnChar_no_sep ',' x (h x (List.mem_cons_self _ _))
  | x :: y :: t, _, h => by
    show splitOnChar ',' (x ++ ',' :: joinComma (y :: t)) = x :: y :: t
    rw [splitOnChar_append ',' _ _ (h x (List.mem_cons_self _ _))]
    rw [splitOnChar_joinComma (y :: t) (by simp)
      (fun piece hp => h piece (List.mem_cons_of_mem _ hp))]

theorem insertPair_ne_nil (x : IPRangePair) :
    ∀ l : List IPRangePair, insertPair x l ≠ []
  | [] => by simp [insertPair]
  | y :: ys => by
    unfold insertPair
    by_cases h : keyLeB x y = true
    · rw [if_pos h]; simp
    · rw [if_neg h]; simp

theorem mergeAdj_ne_nil :
    ∀ (t : List IPRangePair) (a : IPRangePair), mergeAdj a t ≠ []
  | [], a => by simp [mergeAdj]
  | (cs, ce) :: rest, a => by
    unfold mergeAdj
    by_cases h : cs.ip ≤ a.2.ip + 1
    · rw [if_pos h]
      exact mergeAdj_ne_nil rest _
    · rw [if_neg h]
      simp

theorem sort_and_merge_ne_nil {l : List IPRangePair} (h : l ≠ []) :
    sort_and_merge_ip_ranges l ≠ [] := by
  unfold sort_and_merge_ip_ranges
  cases l with
  | nil => exact absurd rfl h
  | cons x xs =>
    cases hsp : sortPairs (x :: xs) with
    | nil => exact absurd hsp (insertPair_ne_nil x (sortPairs xs))
    | cons hd t => exact mergeAdj_ne_nil t hd

/-- Re-parsing the rendered tokens of a uniform, bounded, one-network range
list reconstructs the list exactly (the pool's version and network already
fixed). -/
theorem collectRanges_render (input : List Char) (N P : Nat) :
    ∀ (l : List IPRangePair) (q : IPPool),
      q.ipv4_mask = P → P ≤ 32 → q.version = some 4 →
      q.network = some (N, P) →
      validB l = true → uniformB P l = true → boundedB l = true →
      netUniB N P l = true →
      collectRanges q input (l.map rangeChars) = .ok (l, q)
  | [], q, _, _, _, _, _, _, _, _ => by
    simp only [List.map_nil, collectRanges]
  | (s, e) :: rest, q, hm, hP, hver, hnet, hv, hu, hb, hn2 => by
    simp only [validB, List.all_cons, Bool.and_eq_true, decide_eq_true_eq]
      at hv
    simp only [uniformB, List.all_cons, Bool.and_eq_true, decide_eq_true_eq]
      at hu
    simp only [boundedB, List.all_cons, Bool.and_eq_true, decide_eq_true_eq]
      at hb
    simp only [netUniB, List.all_cons, Bool.and_eq_true, decide_eq_true_eq]
      at hn2
    have hsP : s.plen = P := hu.1.1
    have heP : e.plen = P := hu.1.2
    have hq32 : q.ipv4_mask ≤ 32 := by rw [hm]; exact hP
    have hsEta : Iface.mk s.ip q.ipv4_mask = s :=
      iface_eq_of_ip_eq (by show q.ipv4_mask = s.plen; rw [hm, hsP]) rfl
    have heEta : Iface.mk e.ip q.ipv4_mask = e :=
      iface_eq_of_ip_eq (by show q.ipv4_mask = e.plen; rw [hm, heP]) rfl
    have hparse : parse_ip_range q (rangeChars (s, e)) = .ok (s, e) := by
      unfold rangeChars
      by_cases hse : (s, e).1 = (s, e).2
      · rw [if_pos hse]
        rw [parse_ip_range_render_single q hq32 hb.1.1]
        rw [hsEta]
        rw [show s = e from hse]
      · rw [if_neg hse]
        rw [parse_ip_range_render_pair q hq32 hb.1.1 hb.1.2 hv.1
          (by rw [hm, hn2.1.1, hn2.1.2])]
        rw [hsEta, heEta]
    have hEtaP : Iface.mk s.ip P = s :=
      iface_eq_of_ip_eq (by show P = s.plen; rw [hsP]) rfl
    have hns : netAddr s = N := by
      rw [← hEtaP]
      exact hn2.1.1
    simp only [List.map_cons, collectRanges, hparse]
    have hcond : ¬ (q.version = none ∨ q.network = none) := by
      simp [hver, hnet]
    simp only [if_neg hcond]
    rw [if_neg (by simp [hver])]
    rw [if_neg (by rw [hnet, hns, hsP]; simp)]
    simp only [collectRanges_render input N P rest q hm hP hver hnet
      (by simp only [validB]; exact hv.2)
      (by simp only [uniformB]; exact hu.2)
      (by simp only [boundedB]; exact hb.2)
      (by simp only [netUniB]; exact hn2.2)]

/-- A rendered range token parses back to the very pair it was rendered
from, whenever both endpoints carry the pool's default prefix and share a
network. -/
theorem parse_ip_range_render (q : IPPool) (s e : Iface)
    (hq32 : q.ipv4_mask ≤ 32)
    (hsP : s.plen = q.ipv4_mask) (heP : e.plen = q.ipv4_mask)
    (hbs : s.ip < 4294967296) (hbe : e.ip < 4294967296)
    (hle : s.ip ≤ e.ip) (hN : netAddr s = netAddr e) :
    parse_ip_range q (rangeChars (s, e)) = .ok (s, e) := by
  have hsEta : Iface.mk s.ip q.ipv4_mask = s :=
    iface_eq_of_ip_eq (by show q.ipv4_mask = s.plen; rw [hsP]) rfl
  have heEta : Iface.mk e.ip q.ipv4_mask = e :=
    iface_eq_of_ip_eq (by show q.ipv4_mask = e.plen; rw [heP]) rfl
  unfold rangeChars
  by_cases hse : (s, e).1 = (s, e).2
  · rw [if_pos hse]
    rw [parse_ip_range_render_single q hq32 hbs]
    rw [hsEta]
    rw [show s = e from hse]
  · rw [if_neg hse]
    rw [parse_ip_range_render_pair q hq32 hbs hbe hle
      (by rw [hsEta, heEta]; exact hN)]
    rw [hsEta, heEta]

/-- Constructing a pool from the rendering of a canonical, uniform, bounded,
one-network range list yields exactly that list as the available pool. -/
theorem new_of_canonical {N P m6 : Nat} :
    ∀ {l : List IPRangePair}, l ≠ [] → P ≤ 32 → validB l = true →
      gappedB l = true → uniformB P l = true → boundedB l = true →
      netUniB N P l = true →
      IPPool.new (joinComma (l.map rangeChars)) P m6 =
        .ok { ipv4_mask := P, ipv6_mask := m6, version := some 4,
              network := some (N, P), available_ip_pool := l,
              used_ips := [] }
  | [], hne, _, _, _, _, _, _ => absurd rfl hne
  | (s, e) :: rest, _, hP, hv, hg, hu, hb, hn2 => by
    have hvc := hv
    simp only [validB, List.all_cons, Bool.and_eq_true, decide_eq_true_eq]
      at hv
    simp only [uniformB, List.all_cons, Bool.and_eq_true, decide_eq_true_eq]
      at hu
    simp only [boundedB, List.all_cons, Bool.and_eq_true, decide_eq_true_eq]
      at hb
    simp only [netUniB, List.all_cons, Bool.and_eq_true, decide_eq_true_eq]
      at hn2
    have hsP : s.plen = P := hu.1.1
    have heP : e.plen = P := hu.1.2
    have hsEtaP : Iface.mk s.ip P = s :=
      iface_eq_of_ip_eq (by show P = s.plen; rw [hsP]) rfl
    have heEtaP : Iface.mk e.ip P = e :=
      iface_eq_of_ip_eq (by show P = e.plen; rw [heP]) rfl
    have hns : netAddr s = N := by rw [← hsEtaP]; exact hn2.1.1
    have hnee : netAddr e = N := by rw [← heEtaP]; exact hn2.1.2
    unfold IPPool.new
    rw [splitOnChar_joinComma (((s, e) :: rest).map rangeChars) (by simp)
      (fun piece hp x hx => by
        obtain ⟨pr, hpr, heq⟩ := List.mem_map.mp hp
        rw [← heq] at hx
        exact rangeChars_no_comma pr x hx)]
    have hpar : parse_ip_range
        { ipv4_mask := P, ipv6_mask := m6, version := none, network := none,
          available_ip_pool := [], used_ips := [] }
        (rangeChars (s, e)) = .ok (s, e) :=
      parse_ip_range_render _ s e hP hsP heP hb.1.1 hb.1.2 hv.1
        (by rw [hns, hnee])
    simp only [List.map_cons, collectRanges, hpar]
    rw [if_pos (Or.inl trivial)]
    rw [if_neg (by simp)]
    rw [if_neg (by simp)]
    rw [hns, hsP]
    simp only [collectRanges_render
      (joinComma (rangeChars (s, e) :: List.map rangeChars rest)) N P rest
      { ipv4_mask := P, ipv6_mask := m6, version := some 4,
        network := some (N, P), available_ip_pool := [], used_ips := [] }
      rfl hP rfl rfl
      (by simp only [validB]; exact hv.2)
      (by simp only [uniformB]; exact hu.2)
      (by simp only [boundedB]; exact hb.2)
      (by simp only [netUniB]; exact hn2.2)]
    rw [sort_and_merge_eq_self hvc hg]

/-- The round trip `new (to_string p) = ok q` with `to_string q = to_string p`
for a pool whose intervals all carry the configured default IPv4 prefix
length and lie in one network. -/
theorem to_string_roundtrip (p : IPPool) (N m6 : Nat)
    (hP : p.ipv4_mask ≤ 32)
    (hne : p.available_ip_pool ++ p.used_ips ≠ [])
    (hv : validB (p.available_ip_pool ++ p.used_ips) = true)
    (hu : uniformB p.ipv4_mask (p.available_ip_pool ++ p.used_ips) = true)
    (hb : boundedB (p.available_ip_pool ++ p.used_ips) = true)
    (hn : netUniB N p.ipv4_mask (p.available_ip_pool ++ p.used_ips) = true) :
    ∃ q, IPPool.new (to_string p) p.ipv4_mask m6 = .ok q ∧
      to_string q = to_string p := by
  obtain ⟨hv2, hg2⟩ := sort_and_merge_canonical hv
  have hu2 := uniformB_sort_and_merge hu
  have hb2 := boundedB_sort_and_merge hb
  have hn2 := netUniB_sort_and_merge hn
  have hne2 := sort_and_merge_ne_nil hne
  refine ⟨{ ipv4_mask := p.ipv4_mask, ipv6_mask := m6, version := some 4,
            network := some (N, p.ipv4_mask),
            available_ip_pool := sort_and_merge_ip_ranges
              (p.available_ip_pool ++ p.used_ips),
            used_ips := [] }, ?_, ?_⟩
  · exact new_of_canonical hne2 hP hv2 hg2 hu2 hb2 hn2
  · unfold to_string
    rw [List.append_nil]
    rw [sort_and_merge_eq_self hv2 hg2]

/-! ### Decimal renderings of the concrete octet values used below -/

theorem natChars_c192 : natChars 192 = '1' :: '9' :: '2' :: [] := by
  simp [natChars, digitChar]

theorem natChars_c168 : natChars 168 = '1' :: '6' :: '8' :: [] := by
  simp [natChars, digitChar]

theorem natChars_c10 : natChars 10 = '1' :: '0' :: [] := by
  simp [natChars, digitChar]

theorem natChars_c23 : natChars 23 = '2' :: '3' :: [] := by
  simp [natChars, digitChar]

theorem natChars_c0 : natChars 0 = '0' :: [] := by
  simp [natChars, digitChar]

theorem natChars_c1 : natChars 1 = '1' :: [] := by
  simp [natChars, digitChar]

/-! ### Claim C4 -/

/-- Claim C4, counterexample: the pool built from the valid range string
`192.168.0.1/23-192.168.1.1/23` renders (via `to_string`, which drops the
prefixes) to `192.168.0.1-192.168.1.1`, and reconstructing a pool from that
rendering fails outright with `InvalidIPAddressRangeError`, because the bare
endpoints are re-prefixed with the default `/24` mask and then lie in
different networks.  The claimed round trip
`new(p.to_string()).to_string() == p.to_string()` therefore fails for a
reachable pool state. -/
theorem C4_counterexample :
    ∃ p : IPPool,
      IPPool.new "192.168.0.1/23-192.168.1.1/23".data 24 64 = .ok p ∧
      to_string p = "192.168.0.1-192.168.1.1".data ∧
      IPPool.new (to_string p) p.ipv4_mask p.ipv6_mask =
        .error (.invalidIPAddressRange "192.168.0.1-192.168.1.1".data) := by
  have hts : to_string
      { ipv4_mask := 24, ipv6_mask := 64, version := some 4,
        network := some (3232235520, 23),
        available_ip_pool :=
          [(Iface.mk 3232235521 23, Iface.mk 3232235777 23)],
        used_ips := [] } = "192.168.0.1-192.168.1.1".data := by
    show (natChars 192 ++ '.' :: (natChars 168 ++ '.' ::
        (natChars 0 ++ '.' :: natChars 1))) ++ '-' ::
        (natChars 192 ++ '.' :: (natChars 168 ++ '.' ::
        (natChars 1 ++ '.' :: natChars 1))) = _
    rw [natChars_c192, natChars_c168, natChars_c0, natChars_c1]
    rfl
  refine ⟨{ ipv4_mask := 24, ipv6_mask := 64, version := some 4,
            network := some (3232235520, 23),
            available_ip_pool :=
              [(Iface.mk 3232235521 23, Iface.mk 3232235777 23)],
            used_ips := [] }, rfl, hts, ?_⟩
  rw [hts]
  rfl

/-- Claim C4 (amended): the round trip
`new(p.to_string()).to_string() == p.to_string()` holds for every pool state
whose intervals all carry the pool's configured default IPv4 prefix length
(at most 32), have 32-bit addresses and lie in a single network — in
particular for every pool built from prefixless range strings and mutated by
successful operations.  For general reachable states the round trip fails
(`C4_counterexample`): `to_string` drops the explicit prefixes. -/
theorem C4_round_trip (p : IPPool) (N m6 : Nat) (hP : p.ipv4_mask ≤ 32)
    (hne : p.available_ip_pool ++ p.used_ips ≠ [])
    (hv : validB (p.available_ip_pool ++ p.used_ips) = true)
    (hu : uniformB p.ipv4_mask (p.available_ip_pool ++ p.used_ips) = true)
    (hb : boundedB (p.available_ip_pool ++ p.used_ips) = true)
    (hn : netUniB N p.ipv4_mask (p.available_ip_pool ++ p.used_ips) = true) :
    ∃ q, IPPool.new (to_string p) p.ipv4_mask m6 = .ok q ∧
      to_string q = to_string p :=
  to_string_roundtrip p N m6 hP hne hv hu hb hn

/-- Witness for `C4_round_trip` at a concrete two-address pool. -/
theorem C4_round_trip_witness :
    ∃ q, IPPool.new (to_string
        { ipv4_mask := 24, ipv6_mask := 64, version := some 4,
          network := some (3232235776, 24),
          available_ip_pool :=
            [(Iface.mk 3232235777 24, Iface.mk 3232235778 24)],
          used_ips := [] }) 24 64 = .ok q ∧
      to_string q = to_string
        { ipv4_mask := 24, ipv6_mask := 64, version := some 4,
          network := some (3232235776, 24),
          available_ip_pool :=
            [(Iface.mk 3232235777 24, Iface.mk 3232235778 24)],
          used_ips := [] } :=
  C4_round_trip
    { ipv4_mask := 24, ipv6_mask := 64, version := some 4,
      network := some (3232235776, 24),
      available_ip_pool :=
        [(Iface.mk 3232235777 24, Iface.mk 3232235778 24)],
      used_ips := [] }
    3232235776 64 (by decide) (by decide) (by decide) (by decide)
    (by decide) (by decide)

/-! ### Claim C8 -/

/-- Claim C8, counterexample: `to_string` of the pool built from
`192.168.1.1/23-192.168.1.10/23` is `192.168.1.1-192.168.1.10`, not the
input string: `to_string` renders `str(interface.ip)`, which drops the
`/23` prefixes. -/
theorem C8_counterexample :
    ∃ p : IPPool,
      IPPool.new "192.168.1.1/23-192.168.1.10/23".data 24 64 = .ok p ∧
      to_string p = "192.168.1.1-192.168.1.10".data ∧
      ¬ to_string p = "192.168.1.1/23-192.168.1.10/23".data := by
  have hts : to_string
      { ipv4_mask := 24, ipv6_mask := 64, version := some 4,
        network := some (3232235520, 23),
        available_ip_pool :=
          [(Iface.mk 3232235777 23, Iface.mk 3232235786 23)],
        used_ips := [] } = "192.168.1.1-192.168.1.10".data := by
    show (natChars 192 ++ '.' :: (natChars 168 ++ '.' ::
        (natChars 1 ++ '.' :: natChars 1))) ++ '-' ::
        (natChars 192 ++ '.' :: (natChars 168 ++ '.' ::
        (natChars 1 ++ '.' :: natChars 10))) = _
    rw [natChars_c192, natChars_c168, natChars_c1, natChars_c10]
    rfl
  refine ⟨{ ipv4_mask := 24, ipv6_mask := 64, version := some 4,
            network := some (3232235520, 23),
            available_ip_pool :=
              [(Iface.mk 3232235777 23, Iface.mk 3232235786 23)],
            used_ips := [] }, rfl, hts, ?_⟩
  rw [hts]
  intro hcon
  have := congrArg List.length hcon
  simp only [List.length_append, List.length_cons] at this
  revert this
  decide

/-- Claim C8 (amended): the scenario's exact-preservation holds of `__repr__`,
not of `to_string`: the pool built from `192.168.1.1/23-192.168.1.10/23`
satisfies `repr == input` while `to_string` drops the prefixes. -/
theorem C8_repr_exact :
    ∃ p : IPPool,
      IPPool.new "192.168.1.1/23-192.168.1.10/23".data 24 64 = .ok p ∧
      reprChars p = "192.168.1.1/23-192.168.1.10/23".data ∧
      to_string p = "192.168.1.1-192.168.1.10".data := by
  have hts : to_string
      { ipv4_mask := 24, ipv6_mask := 64, version := some 4,
        network := some (3232235520, 23),
        available_ip_pool :=
          [(Iface.mk 3232235777 23, Iface.mk 3232235786 23)],
        used_ips := [] } = "192.168.1.1-192.168.1.10".data := by
    show (natChars 192 ++ '.' :: (natChars 168 ++ '.' ::
        (natChars 1 ++ '.' :: natChars 1))) ++ '-' ::
        (natChars 192 ++ '.' :: (natChars 168 ++ '.' ::
        (natChars 1 ++ '.' :: natChars 10))) = _
    rw [natChars_c192, natChars_c168, natChars_c1, natChars_c10]
    rfl
  have hrp : reprChars
      { ipv4_mask := 24, ipv6_mask := 64, version := some 4,
        network := some (3232235520, 23),
        available_ip_pool :=
          [(Iface.mk 3232235777 23, Iface.mk 3232235786 23)],
        used_ips := [] } = "192.168.1.1/23-192.168.1.10/23".data := by
    show ((natChars 192 ++ '.' :: (natChars 168 ++ '.' ::
        (natChars 1 ++ '.' :: natChars 1))) ++ '/' :: natChars 23) ++ '-' ::
        ((natChars 192 ++ '.' :: (natChars 168 ++ '.' ::
        (natChars 1 ++ '.' :: natChars 10))) ++ '/' :: natChars 23) = _
    rw [natChars_c192, natChars_c168, natChars_c1, natChars_c10, natChars_c23]
    rfl
  exact ⟨{ ipv4_mask := 24, ipv6_mask := 64, version := some 4,
           network := some (3232235520, 23),
           available_ip_pool :=
             [(Iface.mk 3232235777 23, Iface.mk 3232235786 23)],
           used_ips := [] }, rfl, hrp, hts⟩

/-! ### Claims C9 and C10 -/

theorem splitOnChar_length (c : Char) :
    ∀ l : List Char, (splitOnChar c l).length = l.count c + 1
  | [] => rfl
  | x :: xs => by
    by_cases hx : x = c
    · rw [hx]
      rw [show splitOnChar c (c :: xs) = [] :: splitOnChar c xs from by
        conv_lhs => rw [splitOnChar]
        rw [if_pos rfl]]
      simp only [List.length_cons, splitOnChar_length c xs]
      rw [List.count_cons_self]
    · simp only [splitOnChar, hx, if_false]
      cases hs : splitOnChar c xs with
      | nil =>
        have := splitOnChar_length c xs
        rw [hs] at this
        simp at this
      | cons y ys =>
        have := splitOnChar_length c xs
        rw [hs] at this
        simp only [List.length_cons] at this ⊢
        rw [List.count_cons_of_ne fun hq => hx hq.symm]
        omega

theorem elem_of_mem (c : Char) :
    ∀ l : List Char, c ∈ l → l.elem c = true
  | x :: xs, h => by
    simp only [List.elem]
    cases hbeq : c == x with
    | true => rfl
    | false =>
      have hne : ¬ c = x := by
        intro hq
        rw [hq] at hbeq
        simp at hbeq
      rcases List.mem_cons.mp h with h1 | h2
      · exact absurd h1 hne
      · exact elem_of_mem c xs h2

/-- Claim C9: a range token with two or more dashes makes `_parse_ip_range`
fail with the plain `ValueError` of Python's tuple unpacking (not with
`InvalidIPAddressRangeError` or any other `IPPoolException`), and pool
construction from such a token fails with the same plain `ValueError`. -/
theorem C9_multi_dash_value_error (p : IPPool) (tok : List Char)
    (hcnt : 2 ≤ tok.count '-') :
    parse_ip_range p tok =
      .error (.valueError "too many values to unpack (expected 2)".data) ∧
    ∀ m4 m6 : Nat, tok.count ',' = 0 →
      IPPool.new tok m4 m6 =
        .error (.valueError "too many values to unpack (expected 2)".data)
    := by
  have hmem : ',' ∉ tok → ∀ x ∈ tok, ¬ x = ',' := by
    intro hnm x hx hq
    rw [hq] at hx
    exact hnm hx
  have key : ∀ p' : IPPool, parse_ip_range p' tok =
      .error (.valueError "too many values to unpack (expected 2)".data) := by
    intro p'
    have hcont : tok.contains '-' = true := by
      refine elem_of_mem '-' tok ?_
      have : 0 < tok.count '-' := by omega
      exact List.count_pos_iff.mp this
    have hlen := splitOnChar_length '-' tok
    obtain ⟨a, b, cc, t3, hs⟩ : ∃ a b cc t3,
        splitOnChar '-' tok = a :: b :: cc :: t3 := by
      cases hs : splitOnChar '-' tok with
      | nil =>
        rw [hs] at hlen
        simp at hlen
      | cons a t =>
        cases t with
        | nil =>
          rw [hs] at hlen
          simp only [List.length_cons, List.length_nil] at hlen
          omega
        | cons b t2 =>
          cases t2 with
          | nil =>
            rw [hs] at hlen
            simp only [List.length_cons, List.length_nil] at hlen
            omega
          | cons cc t3 => exact ⟨a, b, cc, t3, rfl⟩
    unfold parse_ip_range
    rw [hcont, if_pos rfl, hs]
  refine ⟨key p, ?_⟩
  intro m4 m6 hc0
  have hns : splitOnChar ',' tok = [tok] :=
    splitOnChar_no_sep ',' tok (hmem (List.count_eq_zero.mp hc0))
  unfold IPPool.new
  rw [hns]
  simp only [collectRanges, key]

/-- Claim C10: a membership query (`is_in_available_ip_pool`, `is_in_used_ips`)
on a string that is not a syntactically valid address raises
`InvalidIPAddressError` rather than answering `False`; in this embedding the
queries are pure functions of the pool, so the pool state is unchanged. -/
theorem C10_membership_invalid (p : IPPool) (s : List Char)
    (h : parseIPIface s = none) :
    is_in_available_ip_pool p s = .error (.invalidIPAddress s) ∧
    is_in_used_ips p s = .error (.invalidIPAddress s) := by
  have hup : update_netmask p s = .error (.invalidIPAddress s) := by
    simp only [update_netmask, h]
  constructor
  · simp only [is_in_available_ip_pool, hup]
  · simp only [is_in_used_ips, hup]

/-- Witness for `C9_multi_dash_value_error` on the token
`10.0.0.1-10.0.0.2-10.0.0.3`. -/
theorem C9_multi_dash_value_error_witness :
    parse_ip_range
      { ipv4_mask := 24, ipv6_mask := 64, version := none, network := none,
        available_ip_pool := [], used_ips := [] }
      "10.0.0.1-10.0.0.2-10.0.0.3".data =
      .error (.valueError "too many values to unpack (expected 2)".data) ∧
    IPPool.new "10.0.0.1-10.0.0.2-10.0.0.3".data 24 64 =
      .error (.valueError "too many values to unpack (expected 2)".data) :=
  have h := C9_multi_dash_value_error
    { ipv4_mask := 24, ipv6_mask := 64, version := none, network := none,
      available_ip_pool := [], used_ips := [] }
    "10.0.0.1-10.0.0.2-10.0.0.3".data (by decide)
  ⟨h.1, h.2 24 64 (by decide)⟩

/-- Witness for `C10_membership_invalid` on the string `not-an-ip`. -/
theorem C10_membership_invalid_witness :
    is_in_available_ip_pool
      { ipv4_mask := 24, ipv6_mask := 64, version := none, network := none,
        available_ip_pool := [], used_ips := [] }
      "not-an-ip".data = .error (.invalidIPAddress "not-an-ip".data) ∧
    is_in_used_ips
      { ipv4_mask := 24, ipv6_mask := 64, version := none, network := none,
        available_ip_pool := [], used_ips := [] }
      "not-an-ip".data = .error (.invalidIPAddress "not-an-ip".data) :=
  C10_membership_invalid _ _ (by decide)

/-! ### Claim C5 -/

/-- Claim C5: `remove_ip_from_ranges` raises `IPNotInListError` carrying the
offending interface and the searched list when no interval contains the
address, and on a list where exactly one interval `[s, e]` contains the
address it replaces that interval in place by `[s, addr-1]` (when
`s.ip < addr`) and `[addr+1, e]` (when `e.ip > addr`), both at `s`'s prefix
length, passing every other interval through unchanged in its original
position. -/
theorem C5_remove_ip_from_ranges :
    (∀ (ranges : List IPRangePair) (i : Iface),
      coversB ranges i.ip = false →
      remove_ip_from_ranges ranges i = .error (.ipNotInList i ranges)) ∧
    (∀ (l1 l2 : List IPRangePair) (s e i : Iface),
      s.ip ≤ i.ip → i.ip ≤ e.ip →
      (∀ pr ∈ l1, ¬ (pr.1.ip ≤ i.ip ∧ i.ip ≤ pr.2.ip)) →
      (∀ pr ∈ l2, ¬ (pr.1.ip ≤ i.ip ∧ i.ip ≤ pr.2.ip)) →
      remove_ip_from_ranges (l1 ++ (s, e) :: l2) i =
        .ok (l1 ++
          ((if s.ip < i.ip then [(s, Iface.mk (i.ip - 1) s.plen)] else []) ++
            (if e.ip > i.ip then [(Iface.mk (i.ip + 1) s.plen, e)] else [])) ++
          l2)) := by
  constructor
  · intro ranges i h
    exact remove_eq_error h
  · intro l1 l2 s e i h1 h2 hout1 hout2
    unfold remove_ip_from_ranges
    rw [removeScan_unique i.ip s e l2 ⟨h1, h2⟩ hout2 l1 hout1]
    rfl

/-- Witness for `C5_remove_ip_from_ranges`: removing `2` splits `[1, 3]`
into `[1, 1]` and `[3, 3]`; removing the absent `9` raises with the address
and the list. -/
theorem C5_remove_ip_from_ranges_witness :
    remove_ip_from_ranges [(Iface.mk 1 24, Iface.mk 3 24)] (Iface.mk 2 24) =
      .ok [(Iface.mk 1 24, Iface.mk 1 24), (Iface.mk 3 24, Iface.mk 3 24)] ∧
    remove_ip_from_ranges [(Iface.mk 1 24, Iface.mk 3 24)] (Iface.mk 9 24) =
      .error (.ipNotInList (Iface.mk 9 24)
        [(Iface.mk 1 24, Iface.mk 3 24)]) := by
  constructor
  · have h := C5_remove_ip_from_ranges.2 [] [] (Iface.mk 1 24)
      (Iface.mk 3 24) (Iface.mk 2 24) (by decide) (by decide)
      (by decide) (by decide)
    rw [List.nil_append] at h
    rw [h]
    rfl
  · exact C5_remove_ip_from_ranges.1 _ _ (by decide)

/-! ### Claim C6 -/

/-- Claim C6: whenever a target address of `set_used_ips` is not in the
available pool, the call raises `NotInAvailableIPPoolError` carrying the
offending interface and the available-list snapshot, and a failure on the
first element of the batch returns the pool exactly unchanged (in
particular a failing single-element batch); the scenario
`new("192.168.1.1-192.168.1.10").set_used_ips(["192.168.1.20"])` fails with
exactly that error and pool. -/
theorem C6_set_used_ips_not_available :
    (∀ (p : IPPool) (s : List Char) (rest : List (List Char)) (i : Iface),
      update_netmask p s = .ok i →
      coversB p.available_ip_pool i.ip = false →
      set_used_ips p (s :: rest) =
        (some (.notInAvailableIPPool i p.available_ip_pool), p)) ∧
    (∃ p : IPPool,
      IPPool.new "192.168.1.1-192.168.1.10".data 24 64 = .ok p ∧
      set_used_ips p ["192.168.1.20".data] =
        (some (.notInAvailableIPPool (Iface.mk 3232235796 24)
          p.available_ip_pool), p)) := by
  constructor
  · intro p s rest i hup hcov
    exact set_used_ips_cons_notavail rest hup (remove_eq_error hcov)
  · exact ⟨{ ipv4_mask := 24, ipv6_mask := 64, version := some 4,
             network := some (3232235776, 24),
             available_ip_pool :=
               [(Iface.mk 3232235777 24, Iface.mk 3232235786 24)],
             used_ips := [] }, rfl, rfl⟩

/-- Witness for `C6_set_used_ips_not_available` at a concrete pool. -/
theorem C6_set_used_ips_not_available_witness :
    set_used_ips
      { ipv4_mask := 24, ipv6_mask := 64, version := some 4,
        network := some (3232235776, 24),
        available_ip_pool :=
          [(Iface.mk 3232235777 24, Iface.mk 3232235786 24)],
        used_ips := [] } ["192.168.1.20".data] =
      (some (.notInAvailableIPPool (Iface.mk 3232235796 24)
        [(Iface.mk 3232235777 24, Iface.mk 3232235786 24)]),
      { ipv4_mask := 24, ipv6_mask := 64, version := some 4,
        network := some (3232235776, 24),
        available_ip_pool :=
          [(Iface.mk 3232235777 24, Iface.mk 3232235786 24)],
        used_ips := [] }) :=
  C6_set_used_ips_not_available.1 _ "192.168.1.20".data []
    (Iface.mk 3232235796 24) rfl (by decide)

/-! ### Claim C2 -/

/-- Claim C2: on a well-formed pool with a non-empty available list,
`allocate_ip` returns the lowest available address, removes exactly that
address from the available coverage and adds exactly it to the used
coverage; on an empty available list it returns the resource-exhausted
`ValueError` with the pool unchanged; consecutive successful allocations
return strictly increasing addresses; and three allocations from
`new("192.168.1.1-192.168.1.10")` yield `192.168.1.1/24`, `192.168.1.2/24`,
`192.168.1.3/24` in order. -/
theorem C2_allocate_ip :
    (∀ (P : Nat) (p p2 : IPPool) (a : Iface), PoolWF P p →
      allocate_ip p = (.ok a, p2) →
      (∀ n, coversB p.available_ip_pool n = true → a.ip ≤ n) ∧
      coversB p.available_ip_pool a.ip = true ∧
      (∀ n, coversB p2.available_ip_pool n =
        (coversB p.available_ip_pool n && decide (n ≠ a.ip))) ∧
      (∀ n, coversB p2.used_ips n =
        (coversB p.used_ips n || decide (n = a.ip)))) ∧
    (∀ p : IPPool, p.available_ip_pool = [] →
      allocate_ip p =
        (.error (.valueError "No available IP addresses in the pool.".data),
          p)) ∧
    (∀ (P : Nat) (p p1 p2 : IPPool) (a1 a2 : Iface), PoolWF P p →
      allocate_ip p = (.ok a1, p1) → allocate_ip p1 = (.ok a2, p2) →
      a1.ip < a2.ip) ∧
    (∃ p0 p1 p2 p3 : IPPool,
      IPPool.new "192.168.1.1-192.168.1.10".data 24 64 = .ok p0 ∧
      allocate_ip p0 = (.ok (Iface.mk 3232235777 24), p1) ∧
      allocate_ip p1 = (.ok (Iface.mk 3232235778 24), p2) ∧
      allocate_ip p2 = (.ok (Iface.mk 3232235779 24), p3)) := by
  refine ⟨?_, ?_, ?_, ?_⟩
  · intro P p p2 a hwf h
    obtain ⟨hmin, hcov, _, hA, hU, _⟩ := allocate_ok_spec hwf h
    exact ⟨hmin, hcov, hA, hU⟩
  · intro p h
    exact allocate_empty h
  · intro P p p1 p2 a1 a2 hwf h1 h2
    obtain ⟨hmin, _, hwf1, hA, _, _⟩ := allocate_ok_spec hwf h1
    obtain ⟨_, hcov2, _, _, _, _⟩ := allocate_ok_spec hwf1 h2
    have hx := hA a2.ip
    rw [hcov2] at hx
    have hand := hx.symm
    simp only [Bool.and_eq_true, decide_eq_true_eq] at hand
    have := hmin a2.ip hand.1
    have hne := hand.2
    omega
  · exact ⟨_, _, _, _, rfl, rfl, rfl, rfl⟩

/-- Witness for `C2_allocate_ip` at a concrete two-address pool. -/
theorem C2_allocate_ip_witness :
    (∀ n, coversB [(Iface.mk 10 24, Iface.mk 11 24)] n = true →
      (Iface.mk 10 24).ip ≤ n) ∧
    coversB [(Iface.mk 10 24, Iface.mk 11 24)] (Iface.mk 10 24).ip = true ∧
    (∀ n, coversB [(Iface.mk 11 24, Iface.mk 11 24)] n =
      (coversB [(Iface.mk 10 24, Iface.mk 11 24)] n &&
        decide (n ≠ (Iface.mk 10 24).ip))) ∧
    (∀ n, coversB [(Iface.mk 10 24, Iface.mk 10 24)] n =
      (coversB ([] : List IPRangePair) n ||
        decide (n = (Iface.mk 10 24).ip))) :=
  C2_allocate_ip.1 24
    { ipv4_mask := 24, ipv6_mask := 64, version := some 4,
      network := some (0, 24),
      available_ip_pool := [(Iface.mk 10 24, Iface.mk 11 24)],
      used_ips := [] }
    { ipv4_mask := 24, ipv6_mask := 64, version := some 4,
      network := some (0, 24),
      available_ip_pool := [(Iface.mk 11 24, Iface.mk 11 24)],
      used_ips := [(Iface.mk 10 24, Iface.mk 10 24)] }
    (Iface.mk 10 24) (by decide) rfl

/-! ### Claim C1 -/

/-- Claim C1, counterexample, two failure modes.  First, a raising
`set_used_ips` batch leaves the pool with two adjacent unmerged singletons
in `used_ips` (they are merged only after a fully successful batch), so the
"no two intervals touch" invariant does not survive operations that raise.
Second, the invariant does not even survive every *normally returning*
operation: on the pool from `10.0.0.1-10.0.0.3`, the batch
`["10.0.0.2/16"]` returns normally but leaves a `/16` endpoint in
`used_ips` (prefix uniformity broken), and the following batch
`["10.0.0.1"]` also returns normally yet its final merge computes
`max(10.0.0.1/24, 10.0.0.2/16) = 10.0.0.1/24` (interfaces compare by
network then netmask), collapsing `used_ips` to a single `/24` singleton:
address 10.0.0.2 (= 167772162) is afterwards in neither list, breaking the
partition invariant. -/
theorem C1_counterexample :
    (∃ (p p2 : IPPool) (e : Err),
      IPPool.new "192.168.1.1-192.168.1.10".data 24 64 = .ok p ∧
      set_used_ips p ["192.168.1.2".data, "192.168.1.3".data,
        "192.168.1.20".data] = (some e, p2) ∧
      gappedB p2.used_ips = false) ∧
    (∃ q q1 q2 : IPPool,
      IPPool.new "10.0.0.1-10.0.0.3".data 24 64 = .ok q ∧
      set_used_ips q ["10.0.0.2/16".data] = (none, q1) ∧
      set_used_ips q1 ["10.0.0.1".data] = (none, q2) ∧
      uniformB 24 q1.used_ips = false ∧
      poolCoverB q 167772162 = true ∧
      poolCoverB q2 167772162 = false) :=
  ⟨⟨_, _, _, rfl, rfl, rfl⟩, ⟨_, _, _, rfl, rfl, rfl, rfl, rfl, rfl⟩⟩

/-- Claim C1 (amended): the invariant — both lists valid, sorted with gaps
(no overlap or adjacency), uniform prefix, mutually disjoint — holds after
construction and is preserved, together with the covered address set
(partition invariant), by `allocate_ip`, `cleanup_used_ips`, and by every
normally-returning `set_used_ips` / `unset_used_ips` batch *whose addresses
normalize to the pool's uniform prefix length* (bare strings, or strings
carrying the configured default prefix) — the hypotheses on the batch
below.  The restriction is necessary: an operation that raises can leave
`used_ips` with touching intervals, and a normally-returning batch with a
different explicit prefix can break uniformity and then lose an address
from the partition at the next merge (`C1_counterexample` shows both). -/
theorem C1_invariants :
    (∀ (input : List Char) (m4 m6 : Nat) (p : IPPool),
      IPPool.new input m4 m6 = .ok p → ∃ P, PoolWF P p) ∧
    (∀ (P : Nat) (p p2 : IPPool) (a : Iface), PoolWF P p →
      allocate_ip p = (.ok a, p2) →
      PoolWF P p2 ∧ ∀ n, poolCoverB p2 n = poolCoverB p n) ∧
    (∀ (P : Nat) (p p2 : IPPool) (ips : List (List Char)), PoolWF P p →
      (∀ s ∈ ips, ∀ i, update_netmask p s = .ok i → i.plen = P) →
      set_used_ips p ips = (none, p2) →
      PoolWF P p2 ∧ ∀ n, poolCoverB p2 n = poolCoverB p n) ∧
    (∀ (P : Nat) (p p2 : IPPool) (args : List UnsetArg), PoolWF P p →
      (∀ a ∈ args, ∀ i, normArg p a = .ok i → i.plen = P) →
      unset_used_ips p args = (none, p2) →
      PoolWF P p2 ∧ ∀ n, poolCoverB p2 n = poolCoverB p n) ∧
    (∀ (P : Nat) (p p2 : IPPool), PoolWF P p →
      cleanup_used_ips p = (none, p2) →
      PoolWF P p2 ∧ ∀ n, poolCoverB p2 n = poolCoverB p n) := by
  refine ⟨?_, ?_, ?_, ?_, ?_⟩
  · intro input m4 m6 p h
    obtain ⟨P, l, hwf, _⟩ := new_establishes_WF h
    exact ⟨P, hwf⟩
  · intro P p p2 a hwf h
    obtain ⟨_, _, hwf2, _, _, hT⟩ := allocate_ok_spec hwf h
    exact ⟨hwf2, hT⟩
  · intro P p p2 ips hwf hpl h
    obtain ⟨hva, hga, hua, hvu, hgu, huu, hdisj⟩ := hwf
    obtain ⟨hwf2, hT, _, _⟩ :=
      set_used_ips_ok_spec ips p p2 P hva hga hua hvu huu hdisj hpl h
    exact ⟨hwf2, hT⟩
  · intro P p p2 args hwf hpl h
    obtain ⟨hva, hga, hua, hvu, hgu, huu, hdisj⟩ := hwf
    obtain ⟨hwf2, hT, _, _⟩ :=
      unset_used_ips_ok_spec args p p2 P hvu hgu huu hva hua hdisj hpl h
    exact ⟨hwf2, hT⟩
  · intro P p p2 hwf h
    obtain ⟨hwf2, hT, _, _⟩ := cleanup_ok_spec hwf h
    exact ⟨hwf2, hT⟩

/-- Witness for `C1_invariants`: a successful one-address `set_used_ips`
batch on a concrete well-formed pool. -/
theorem C1_invariants_witness :
    PoolWF 24
      { ipv4_mask := 24, ipv6_mask := 64, version := some 4,
        network := some (0, 24),
        available_ip_pool := [(Iface.mk 1 24, Iface.mk 3 24)],
        used_ips := [] } ∧
    (PoolWF 24
      { ipv4_mask := 24, ipv6_mask := 64, version := some 4,
        network := some (0, 24),
        available_ip_pool :=
          [(Iface.mk 1 24, Iface.mk 1 24), (Iface.mk 3 24, Iface.mk 3 24)],
        used_ips := [(Iface.mk 2 24, Iface.mk 2 24)] } ∧
      ∀ n, poolCoverB
        { ipv4_mask := 24, ipv6_mask := 64, version := some 4,
          network := some (0, 24),
          available_ip_pool :=
            [(Iface.mk 1 24, Iface.mk 1 24), (Iface.mk 3 24, Iface.mk 3 24)],
          used_ips := [(Iface.mk 2 24, Iface.mk 2 24)] } n =
        poolCoverB
          { ipv4_mask := 24, ipv6_mask := 64, version := some 4,
            network := some (0, 24),
            available_ip_pool := [(Iface.mk 1 24, Iface.mk 3 24)],
            used_ips := [] } n) :=
  ⟨by decide,
    C1_invariants.2.2.1 24
      { ipv4_mask := 24, ipv6_mask := 64, version := some 4,
        network := some (0, 24),
        available_ip_pool := [(Iface.mk 1 24, Iface.mk 3 24)],
        used_ips := [] }
      { ipv4_mask := 24, ipv6_mask := 64, version := some 4,
        network := some (0, 24),
        available_ip_pool :=
          [(Iface.mk 1 24, Iface.mk 1 24), (Iface.mk 3 24, Iface.mk 3 24)],
        used_ips := [(Iface.mk 2 24, Iface.mk 2 24)] }
      ["0.0.0.2".data] (by decide)
      (by
        intro s hs i hup
        simp only [List.mem_singleton] at hs
        subst hs
        have h2 : (Except.ok (Iface.mk 2 24) : Except Err Iface) =
            .ok i := hup
        injection h2 with h2
        rw [← h2])
      rfl⟩

/-! ### Claim C3 -/

/-- Strict ascent of the address values, each element above the bound `m`. -/
def ascAboveB (m : Nat) : List Iface → Bool
  | [] => true
  | a :: t => decide (m < a.ip) && ascAboveB a.ip t

/-- Strictly ascending address values. -/
def ascB : List Iface → Bool
  | [] => true
  | a :: t => ascAboveB a.ip t

theorem expandAll_len :
    ∀ l : List IPRangePair, (expandAll l).length = ipCount l
  | [] => rfl
  | (s, e) :: t => by
    simp only [expandAll, ipCount, List.length_append, expandRange_len,
      expandAll_len t]

theorem expandFrom_any_ip (plen : Nat) :
    ∀ (k s n : Nat),
      (expandFrom plen s k).any (fun j => decide (j.ip = n)) =
        (decide (s ≤ n) && decide (n < s + k))
  | 0, s, n => by
    apply bool_eq_of_iff
    simp only [expandFrom, List.any_nil, Bool.and_eq_true, decide_eq_true_eq,
      Bool.false_eq_true, false_iff]
    omega
  | k + 1, s, n => by
    simp only [expandFrom, List.any_cons, expandFrom_any_ip plen k (s + 1) n]
    apply bool_eq_of_iff
    simp only [Bool.or_eq_true, Bool.and_eq_true, decide_eq_true_eq]
    omega

theorem expandAll_covers :
    ∀ (l : List IPRangePair) (n : Nat),
      (expandAll l).any (fun j => decide (j.ip = n)) = coversB l n
  | [], _ => rfl
  | (s, e) :: t, n => by
    show ((expandRange s.plen s.ip e.ip ++ expandAll t).any
      (fun j => decide (j.ip = n))) = coversB ((s, e) :: t) n
    rw [List.any_append]
    rw [expandAll_covers t n]
    unfold expandRange
    rw [expandFrom_any_ip]
    show _ = ((decide (s.ip ≤ n) && decide (n ≤ e.ip)) || coversB t n)
    cases hc : coversB t n
    · simp only [Bool.or_false]
      apply bool_eq_of_iff
      simp only [Bool.and_eq_true, decide_eq_true_eq]
      omega
    · simp only [Bool.or_true]

theorem ascAboveB_expandFrom (plen : Nat) :
    ∀ (k s m : Nat) (rest : List Iface), m < s → k ≠ 0 →
      ascAboveB (s + k - 1) rest = true →
      ascAboveB m (expandFrom plen s k ++ rest) = true
  | 0, _, _, _, _, hk, _ => absurd rfl hk
  | k + 1, s, m, rest, hm, _, hrest => by
    simp only [expandFrom, List.cons_append, ascAboveB, Bool.and_eq_true,
      decide_eq_true_eq]
    refine ⟨hm, ?_⟩
    cases k with
    | zero =>
      show ascAboveB s rest = true
      have he : s + (0 + 1) - 1 = s := by omega
      rw [he] at hrest
      exact hrest
    | succ k2 =>
      show ascAboveB s (expandFrom plen (s + 1) (k2 + 1) ++ rest) = true
      refine ascAboveB_expandFrom plen (k2 + 1) (s + 1) s rest (by omega)
        (by simp) ?_
      have he : s + 1 + (k2 + 1) - 1 = s + (k2 + 1 + 1) - 1 := by omega
      rw [he]
      exact hrest

theorem expandAll_ascAbove :
    ∀ (l : List IPRangePair) (m : Nat), validB l = true →
      gapFrom m l = true → ascAboveB m (expandAll l) = true
  | [], _, _, _ => rfl
  | (s, e) :: t, m, hv, hg => by
    simp only [validB, List.all_cons, Bool.and_eq_true, decide_eq_true_eq]
      at hv
    simp only [gapFrom, Bool.and_eq_true, decide_eq_true_eq] at hg
    show ascAboveB m (expandFrom s.plen s.ip (e.ip + 1 - s.ip) ++
      expandAll t) = true
    refine ascAboveB_expandFrom s.plen (e.ip + 1 - s.ip) s.ip m _
      (by omega) (by omega) ?_
    have he : s.ip + (e.ip + 1 - s.ip) - 1 = e.ip := by omega
    rw [he]
    exact expandAll_ascAbove t e.ip (by simp only [validB]; exact hv.2) hg.2

theorem expandAll_asc (l : List IPRangePair) (hv : validB l = true)
    (hg : gappedB l = true) : ascB (expandAll l) = true := by
  cases l with
  | nil => rfl
  | cons hd t =>
    obtain ⟨s, e⟩ := hd
    simp only [validB, List.all_cons, Bool.and_eq_true, decide_eq_true_eq]
      at hv
    have hgt : gapFrom e.ip t = true := hg
    show ascB (expandFrom s.plen s.ip (e.ip + 1 - s.ip) ++ expandAll t) = true
    obtain ⟨k, hk⟩ : ∃ k, e.ip + 1 - s.ip = k + 1 :=
      ⟨e.ip - s.ip, by omega⟩
    rw [hk]
    show ascAboveB s.ip (expandFrom s.plen (s.ip + 1) k ++ expandAll t) = true
    cases k with
    | zero =>
      show ascAboveB s.ip (expandAll t) = true
      refine expandAll_ascAbove t s.ip (by simp only [validB]; exact hv.2) ?_
      have he : e.ip = s.ip := by omega
      rw [← he]
      exact hgt
    | succ k2 =>
      refine ascAboveB_expandFrom s.plen (k2 + 1) (s.ip + 1) s.ip _
        (by omega) (by simp) ?_
      have he : s.ip + 1 + (k2 + 1) - 1 = e.ip := by omega
      rw [he]
      exact expandAll_ascAbove t e.ip (by simp only [validB]; exact hv.2) hgt

/-- Claim C7, counterexample: the cap of `_list_ips` is not 65536: the length
guard runs *before* each append, so a pool covering 65537 addresses is
expanded successfully into a 65537-entry list instead of raising
`TooManyIPsToExtendError`. -/
theorem C7_counterexample :
    ∃ p : IPPool,
      IPPool.new "10.0.0.0/15-10.1.0.0/15".data 24 64 = .ok p ∧
      65536 < ipCount p.available_ip_pool ∧
      ∃ l, list_available_ip p = .ok l ∧ l.length = 65537 := by
  refine ⟨{ ipv4_mask := 24, ipv6_mask := 64, version := some 4,
            network := some (167772160, 15),
            available_ip_pool :=
              [(Iface.mk 167772160 15, Iface.mk 167837696 15)],
            used_ips := [] }, rfl, by decide, ?_⟩
  refine ⟨[] ++ expandAll
      [(Iface.mk 167772160 15, Iface.mk 167837696 15)], ?_, ?_⟩
  · unfold list_available_ip
    rw [listIps_ok _ _ [] (by decide) (by decide)]
  · rw [List.nil_append, expandAll_len]
    decide

/-- Claim C7 (amended): for pools whose ranges all stop below the maximal
address 255.255.255.255, `list_available_ip` and `list_used_ips` succeed
exactly when the expansion has at most 65537 entries — the guard
`len(ips) > 65536` runs before each append, so the effective cap is 65537,
one above the claimed 65536 (`C7_counterexample`) — raising
`TooManyIPsToExtendError` carrying the pool beyond that; a range reaching
255.255.255.255 within the cap instead escapes with
`ipaddress.AddressValueError` from the `current_ip += 1` increment; a
successful expansion has one interface per covered address, in strictly
ascending order for canonical lists. -/
theorem C7_list_cap (p : IPPool) :
    (ipCount p.available_ip_pool ≤ 65537 →
      noMaxEndB p.available_ip_pool = true →
      list_available_ip p = .ok (expandAll p.available_ip_pool)) ∧
    (65537 < ipCount p.available_ip_pool →
      noMaxEndB p.available_ip_pool = true →
      list_available_ip p = .error (.tooManyIPsToExtend p)) ∧
    (ipCount p.used_ips ≤ 65537 → noMaxEndB p.used_ips = true →
      list_used_ips p = .ok (expandAll p.used_ips)) ∧
    (65537 < ipCount p.used_ips → noMaxEndB p.used_ips = true →
      list_used_ips p = .error (.tooManyIPsToExtend p)) ∧
    (∀ (s e : Iface) (rest : List IPRangePair),
      p.available_ip_pool = (s, e) :: rest → s.ip ≤ e.ip →
      e.ip = 4294967295 → e.ip + 1 - s.ip ≤ 65537 →
      list_available_ip p = .error (.addressValueError
        "4294967296 (>= 2**32) is not permitted as an IPv4 address".data)) ∧
    (∀ l : List IPRangePair, validB l = true → gappedB l = true →
      (expandAll l).length = ipCount l ∧ ascB (expandAll l) = true ∧
      ∀ n : Nat, (expandAll l).any (fun j => decide (j.ip = n)) =
        coversB l n) := by
  refine ⟨?_, ?_, ?_, ?_, ?_, ?_⟩
  · intro h hmax
    unfold list_available_ip
    rw [listIps_ok _ _ [] (by simpa using h) hmax]
    rw [List.nil_append]
  · intro h hmax
    unfold list_available_ip
    exact listIps_err _ _ [] (by simp) (by simpa using h) hmax
  · intro h hmax
    unfold list_used_ips
    rw [listIps_ok _ _ [] (by simpa using h) hmax]
    rw [List.nil_append]
  · intro h hmax
    unfold list_used_ips
    exact listIps_err _ _ [] (by simp) (by simpa using h) hmax
  · intro s e rest hav hse hmaxe hcnt
    unfold list_available_ip
    rw [hav]
    simp only [listIps]
    rw [show e.ip = 4294967295 from hmaxe] at hse hcnt ⊢
    rw [listIpsRange_addr_err p s.plen (4294967295 + 1 - s.ip) s.ip []
      rfl (by omega) (by simpa using hcnt)]
  · intro l hv hg
    exact ⟨expandAll_len l, expandAll_asc l hv hg, expandAll_covers l⟩

/-- Witness for `C7_list_cap` at a concrete pool. -/
theorem C7_list_cap_witness :
    list_available_ip
      { ipv4_mask := 24, ipv6_mask := 64, version := some 4,
        network := some (0, 24),
        available_ip_pool := [(Iface.mk 1 24, Iface.mk 3 24)],
        used_ips := [] } =
      .ok (expandAll [(Iface.mk 1 24, Iface.mk 3 24)]) ∧
    (expandAll [(Iface.mk 1 24, Iface.mk 3 24)]).length =
      ipCount [(Iface.mk 1 24, Iface.mk 3 24)] ∧
    ascB (expandAll [(Iface.mk 1 24, Iface.mk 3 24)]) = true :=
  have h := C7_list_cap
    { ipv4_mask := 24, ipv6_mask := 64, version := some 4,
      network := some (0, 24),
      available_ip_pool := [(Iface.mk 1 24, Iface.mk 3 24)],
      used_ips := [] }
  ⟨h.1 (by decide) (by decide),
    (h.2.2.2.2.2 [(Iface.mk 1 24, Iface.mk 3 24)] (by decide)
      (by decide)).1,
    (h.2.2.2.2.2 [(Iface.mk 1 24, Iface.mk 3 24)] (by decide)
      (by decide)).2.1⟩
